import Mathlib

/-!
Verification of the virtual-host dispatch layer of `pandora-web-server`
(`virtual-hosts-module/src/handler.rs`) against its specification.

The development shallowly embeds the module's data model and operations:

* `set_uri_path`, `VirtualHostsCtx`, `VirtualHostsHandler`, the four request
  phases (`request_filter`, `upstream_peer`, `response_filter`, `logging`),
  `as_inner` and the configuration compiler `try_from` are translated from
  `handler.rs`.
* The routing table (`pandora_module_utils::router::Router` and `Path`), the
  configuration types (`VirtualHostsConf`) and the session abstraction are
  external collaborators whose sources are not part of the verified tree;
  they are modelled from the specification's contracts (each such definition
  carries a doc comment starting with `Modelled from the spec:`).
* Rust byte strings are modelled as Lean `String`s, machine integers as `Nat`,
  fallible operations as `Except`/`Option`, and the `warn!` log side effect as
  an explicit list of emitted diagnostics.
-/

namespace PandoraVH

/-- Outcome of the `request_filter` phase (`pandora_module_utils::RequestFilterResult`). -/
inductive RequestFilterResult where
  | ResponseSent
  | Handled
  | Unhandled
deriving DecidableEq, Repr

/-- Conversion errors (`Box<Error>`); only the carried description matters here. -/
abbrev Err := String

/-- An upstream peer (`Box<HttpPeer>`), abstracted to an identifier. -/
abbrev HttpPeer := Nat

/-- A response header (`ResponseHeader`), abstracted to an opaque value. -/
abbrev ResponseHeader := Nat

/-! ## URIs (the `http` crate's `Uri`, as used by `set_uri_path`) -/

/-- Characters the model accepts in the path component of a path-and-query
string.  This follows the `http` crate's lenient URI character set; the model
whitelists alphanumerics plus common URI symbols.  Space and the quote,
angle-bracket and hash characters are rejected, as in the crate; `?` is not a
path character because it starts the query. -/
def validPathChar (c : Char) : Bool :=
  c.isAlphanum || [Char.ofNat 45, Char.ofNat 46, Char.ofNat 95, Char.ofNat 126,
    Char.ofNat 33, Char.ofNat 36, Char.ofNat 38, Char.ofNat 42, Char.ofNat 43,
    Char.ofNat 44, Char.ofNat 59, Char.ofNat 61, Char.ofNat 58, Char.ofNat 64,
    Char.ofNat 47, Char.ofNat 37].contains c

/-- Characters accepted in the query component: path characters plus `?`. -/
def validQueryChar (c : Char) : Bool :=
  validPathChar c || c = Char.ofNat 63

/-- The path-and-query component of a URI (`http::uri::PathAndQuery`):
the raw path and the optional query, kept separately. -/
structure PathAndQuery where
  path : String
  query : Option String
deriving DecidableEq, Repr

/-- Splits a character list at the first `?`: everything before it is the
path, everything after it (further `?` included) is the query. -/
def splitAtQuery : List Char → List Char × Option (List Char)
  | [] => ([], none)
  | c :: cs =>
      if c = Char.ofNat 63 then ([], some cs)
      else
        let (p, q) := splitAtQuery cs
        (c :: p, q)

/-- Validity of an optional query's characters. -/
def validQueryOpt : Option (List Char) → Bool
  | none => true
  | some l => l.all validQueryChar

/-- Embeds `str::parse::<PathAndQuery>` of the `http` crate: split at the
first `?`, validate the character sets, fail on an invalid character. -/
def PathAndQuery.parse (s : String) : Option PathAndQuery :=
  let (p, q) := splitAtQuery s.toList
  if p.all validPathChar && validQueryOpt q then
    some ⟨⟨p⟩, q.map (fun l => ⟨l⟩)⟩
  else
    none

/-- A URI (`http::Uri`): optional scheme, optional authority, and a
path-and-query component (possibly empty). -/
structure Uri where
  scheme : Option String
  authority : Option String
  pq : PathAndQuery
deriving DecidableEq, Repr

/-- The empty path-and-query (`PathAndQuery::empty()`). -/
def PathAndQuery.empty : PathAndQuery := ⟨"", none⟩

/-- Embeds `Uri::path()` of the `http` crate: the raw path, with the empty
path normalized to `/`. -/
def Uri.path (u : Uri) : String :=
  if u.pq.path = "" then "/" else u.pq.path

/-- Embeds `PathAndQuery::query()` as reached through `Uri::into_parts()`:
the query of the path-and-query component, `none` when the component is
empty (an empty component is turned into `None` by `into_parts`). -/
def Uri.query (u : Uri) : Option String :=
  if u.pq = PathAndQuery.empty then none else u.pq.query

/-- Embeds `http::uri::Uri::from_parts` (reached via `Parts::try_into()`):
a scheme requires both an authority and a path-and-query;
an authority without a scheme forbids a path-and-query;
missing components default to their empty values. -/
def Uri.fromParts (scheme authority : Option String) (pq : Option PathAndQuery) :
    Option Uri :=
  match scheme with
  | some sch =>
      match authority, pq with
      | some auth, some p => some ⟨some sch, some auth, p⟩
      | _, _ => none
  | none =>
      match authority, pq with
      | some _, some _ => none
      | _, _ => some ⟨none, authority, pq.getD PathAndQuery.empty⟩

/-- Embeds `set_uri_path` from `handler.rs`: build the new path-and-query
string from the given path bytes and the original query, parse it, and
reassemble the URI parts; if reassembly fails, return the original URI. -/
def set_uri_path (uri : Uri) (path : String) : Uri :=
  let path_and_query :=
    match uri.query with
    | some query => path ++ "?" ++ query
    | none => path
  let newPq := PathAndQuery.parse path_and_query
  (Uri.fromParts uri.scheme uri.authority newPq).getD uri

/-! ## Paths and segment matching

`pandora_module_utils::router::Path` is not part of the verified tree. -/

/-- Collects the maximal runs of non-separator characters, accumulating the
current run in reverse in `acc`. -/
def segsAux (acc : List Char) : List Char → List String
  | [] => if acc.isEmpty then [] else [⟨acc.reverse⟩]
  | c :: cs =>
      if c = Char.ofNat 47 then
        if acc.isEmpty then segsAux [] cs else ⟨acc.reverse⟩ :: segsAux [] cs
      else segsAux (c :: acc) cs

/-- The segment list of a path string: split on `/`, dropping empty pieces,
so runs of separator characters count as one boundary. -/
def pathSegments (s : String) : List String := segsAux [] s.toList

/-- Modelled from the spec: `router::Path`, the canonical form of a rule
path used for stripping — its list of segments. -/
structure Path where
  segments : List String
deriving DecidableEq, Repr

/-- Modelled from the spec: `Path::new`, normalizing a path string into
segments. -/
def Path.new (s : String) : Path := ⟨pathSegments s⟩

/-- Drops leading `/` characters, requiring at least one; returns `none`
when the list does not start with a separator. -/
def dropSlashes : List Char → Option (List Char)
  | [] => none
  | c :: cs =>
      if c = Char.ofNat 47 then
        some ((c :: cs).dropWhile (fun d => d = Char.ofNat 47))
      else none

/-- Strips one expected segment from the front of a character list:
the segment's characters must follow, ended by a separator or the end of
the input (so `/subdir` does not match `/subdir_xyz`). -/
def stripSegment (seg : List Char) (cs : List Char) : Option (List Char) :=
  match seg with
  | [] =>
      match cs with
      | [] => some []
      | c :: _ => if c = Char.ofNat 47 then some cs else none
  | a :: rest =>
      match cs with
      | [] => none
      | c :: cs' => if c = a then stripSegment rest cs' else none

/-- Strips a sequence of expected segments, each preceded by a run of one or
more separators, returning the raw remainder (leading separators of the
remainder preserved). -/
def stripSegments : List String → List Char → Option (List Char)
  | [], cs => some cs
  | seg :: rest, cs => do
      let cs1 ← dropSlashes cs
      let cs2 ← stripSegment seg.toList cs1
      stripSegments rest cs2

/-- Modelled from the spec: `Path::remove_prefix_from` — removes the rule's
segments from the front of a request path on segment boundaries, preserving
the raw bytes of the remainder (duplicate separators are not collapsed);
an empty remainder becomes exactly `/`. -/
def Path.removePrefixFrom (p : Path) (path : String) : Option String :=
  match stripSegments p.segments path.toList with
  | some [] => some "/"
  | some rest => some ⟨rest⟩
  | none => none

/-! ## The routing table

`pandora_module_utils::router::Router` is not part of the verified tree;
it is modelled from the spec's external-interface contract (§6). -/

/-- Modelled from the spec: one registered routing entry —
`(host, path-rule, value, optional-fallback-value)`. -/
structure RouterEntry (V : Type) where
  host : String
  rule : String
  value : V
  fallback : Option V
deriving DecidableEq, Repr

/-- Modelled from the spec: the router builder is the ordered list of pushed
entries; the position of an entry is its stable zero-based index. -/
abbrev RouterBuilder (V : Type) : Type := List (RouterEntry V)

/-- Modelled from the spec: `Router::builder()` — no entries yet. -/
def RouterBuilder.new (V : Type) : RouterBuilder V := []

/-- Modelled from the spec: `push` appends one entry; call order determines
the index and the collision precedence. -/
def RouterBuilder.push (b : RouterBuilder V) (host rule : String) (value : V)
    (fallback : Option V) : RouterBuilder V :=
  b ++ [⟨host, rule, value, fallback⟩]

/-- Modelled from the spec: the compiled, immutable routing table. -/
structure Router (V : Type) where
  entries : List (RouterEntry V)
deriving DecidableEq, Repr

/-- Modelled from the spec: `build()` finalizes the builder. -/
def RouterBuilder.build (b : RouterBuilder V) : Router V := ⟨b⟩

/-- Modelled from the spec: `Table::retrieve(index)` — direct index lookup
of an entry's value. -/
def Router.retrieve (r : Router V) (i : Nat) : Option V :=
  (r.entries.get? i).map (fun e => e.value)

/-- Modelled from the spec: a lookup match, exposing the matched value and
the entry's index. -/
structure RMatch (V : Type) where
  value : V
  index : Nat
deriving DecidableEq, Repr

/-- The entries of a list together with their zero-based indices. -/
def withIndices (l : List (RouterEntry V)) : List (Nat × RouterEntry V) :=
  l.enum

/-- The last element of a list satisfying a predicate (later pushes override
earlier ones for direct lookup). -/
def lastSuch (p : α → Bool) (l : List α) : Option α :=
  l.foldl (fun acc x => if p x then some x else acc) none

/-- Selects the best prefix-rule candidate: among candidate entries the
longest matched span wins, later pushes breaking ties. -/
def pickBest (isCand : Nat × RouterEntry V → Bool)
    (acc : Option (Nat × RouterEntry V)) :
    List (Nat × RouterEntry V) → Option (Nat × RouterEntry V)
  | [] => acc
  | ie :: rest =>
      pickBest isCand
        (if isCand ie then
          match acc with
          | none => some ie
          | some prev =>
              if (pathSegments prev.2.rule).length ≤
                  (pathSegments ie.2.rule).length
              then some ie else some prev
        else acc) rest

/-- Modelled from the spec: lookup among one host's entries.
An entry whose rule segments equal the request's segments matches exactly;
the last such entry wins and yields its fallback value when present (the
"path exactly equals the prefix" payload) and its value otherwise.
Failing that, entries carrying a fallback act as prefix rules: an entry
whose rule segments are a strict prefix of the request's segments matches,
the longest matched span winning and later pushes breaking ties. -/
def Router.lookupHost (r : Router V) (h : String) (P : List String) :
    Option (RMatch V) :=
  match lastSuch (fun ie => ie.2.host = h ∧ pathSegments ie.2.rule = P)
      (withIndices r.entries) with
  | some (i, e) => some ⟨e.fallback.getD e.value, i⟩
  | none =>
      let best := pickBest
        (fun ie => ie.2.host = h ∧ ie.2.fallback.isSome ∧
          pathSegments ie.2.rule ≠ P ∧ (pathSegments ie.2.rule).isPrefixOf P)
        none (withIndices r.entries)
      best.map (fun ie => ⟨ie.2.value, ie.1⟩)

/-- Modelled from the spec: `Table::lookup(host, path)` — an exact host-name
match takes precedence over the empty-string default entry. -/
def Router.lookup (r : Router V) (host path : String) : Option (RMatch V) :=
  let P := pathSegments path
  match r.lookupHost host P with
  | some m => some m
  | none => r.lookupHost "" P

/-! ## Sessions and the per-request context -/

/-- The session's typed extension storage (`session.extensions()`); the only
key this module uses is `IndexEntry(usize)`, so the storage is modelled as
that single optional slot. -/
structure Extensions where
  indexEntry : Option Nat
deriving DecidableEq, Repr

/-- Modelled from the spec: the session abstraction — the resolved host (if
any), the request URI, and the extension storage. -/
structure Session where
  host : Option String
  uri : Uri
  extensions : Extensions
deriving DecidableEq, Repr

/-- Embeds `session.set_uri(new_uri)`. -/
def Session.setUri (s : Session) (u : Uri) : Session :=
  { s with uri := u }

/-- Embeds `VirtualHostsCtx<Ctx>` from `handler.rs`: the recorded entry
index and the inner handler's context. -/
structure VirtualHostsCtx (Ctx : Type) where
  index : Option Nat
  handler : Ctx
deriving DecidableEq, Repr

/-- Embeds `VirtualHostsHandler<H>` from `handler.rs`: the compiled routing
table over `(Option<Path>, H)` payloads. -/
structure VirtualHostsHandler (H : Type) where
  handlers : Router (Option Path × H)
deriving DecidableEq, Repr

/-- The inner handler type's `RequestFilter` implementation, which the
virtual-hosts handler delegates to.  The code is generic over `H`; the
embedding passes the trait methods explicitly.  Each method receives the
handler value and the state it may mutate, and returns the new state
together with its result. -/
structure PhaseOps (H Ctx : Type) where
  new_ctx : Ctx
  request_filter : H → Session → Ctx → Session × Ctx × Except Err RequestFilterResult
  upstream_peer : H → Session → Ctx → Session × Ctx × Except Err (Option HttpPeer)
  response_filter : H → Session → ResponseHeader → Option Ctx →
    Session × ResponseHeader × Option Ctx
  logging : H → Session → Option Err → Ctx → Session × Ctx

/-- Embeds `VirtualHostsHandler::as_inner`: retrieve the previously selected
handler through the context's recorded index. -/
def as_inner (self : VirtualHostsHandler H) (ctx : VirtualHostsCtx Ctx) :
    Option H :=
  ctx.index.bind (fun i => (self.handlers.retrieve i).map (fun v => v.2))

/-- Embeds `RequestFilter::new_ctx` for `VirtualHostsHandler`. -/
def new_ctx (ops : PhaseOps H Ctx) : VirtualHostsCtx Ctx :=
  ⟨none, ops.new_ctx⟩

/-- The session-state updates of `request_filter`'s successful-lookup
branch: attach the matched index to the session extensions and, when the
matched payload carries a strip marker whose removal succeeds, rewrite the
URI in place. -/
def select_session (session : Session) (path : String)
    (result : RMatch (Option Path × H)) : Session :=
  let strip_path := result.value.1
  let new_path := strip_path.bind (fun p => p.removePrefixFrom path)
  let session1 := { session with extensions := ⟨some result.index⟩ }
  match new_path with
  | some np => session1.setUri (set_uri_path session1.uri np)
  | none => session1

/-- The successful-lookup branch of `request_filter`: record the index in
the context and in the session extensions, rewrite the URI when the matched
payload carries a strip marker, and delegate to the matched handler. -/
def request_filter_found (ops : PhaseOps H Ctx) (session : Session)
    (ctx : VirtualHostsCtx Ctx) (path : String)
    (result : RMatch (Option Path × H)) :
    Session × VirtualHostsCtx Ctx × Except Err RequestFilterResult :=
  let handler := result.value.2
  let ctx1 : VirtualHostsCtx Ctx := { ctx with index := some result.index }
  let session2 := select_session session path result
  let (session3, hctx, res) := ops.request_filter handler session2 ctx1.handler
  (session3, { ctx1 with handler := hctx }, res)

/-- Embeds `RequestFilter::request_filter` for `VirtualHostsHandler`:
look up `(host, path)` in the table (the host defaulting to the empty
string) and either delegate through `request_filter_found` or return
`Unhandled`. -/
def request_filter (ops : PhaseOps H Ctx) (self : VirtualHostsHandler H)
    (session : Session) (ctx : VirtualHostsCtx Ctx) :
    Session × VirtualHostsCtx Ctx × Except Err RequestFilterResult :=
  let path := session.uri.path
  let host := session.host.getD ""
  match self.handlers.lookup host path with
  | some result => request_filter_found ops session ctx path result
  | none => (session, ctx, Except.ok RequestFilterResult.Unhandled)

/-- Embeds `RequestFilter::upstream_peer` for `VirtualHostsHandler`:
recover the handler via `as_inner` and delegate; report no peer otherwise. -/
def upstream_peer (ops : PhaseOps H Ctx) (self : VirtualHostsHandler H)
    (session : Session) (ctx : VirtualHostsCtx Ctx) :
    Session × VirtualHostsCtx Ctx × Except Err (Option HttpPeer) :=
  match as_inner self ctx with
  | some handler =>
      let (s, hctx, r) := ops.upstream_peer handler session ctx.handler
      (s, { ctx with handler := hctx }, r)
  | none => (session, ctx, Except.ok none)

/-- Embeds `RequestFilter::response_filter` for `VirtualHostsHandler`:
recover the handler via the context's index, falling back to the
session-attached `IndexEntry`, and delegate; do nothing otherwise. -/
def response_filter (ops : PhaseOps H Ctx) (self : VirtualHostsHandler H)
    (session : Session) (response : ResponseHeader)
    (ctx : Option (VirtualHostsCtx Ctx)) :
    Session × ResponseHeader × Option (VirtualHostsCtx Ctx) :=
  let idx :=
    match ctx.bind (fun c => c.index) with
    | some i => some i
    | none => session.extensions.indexEntry
  let handler := (idx.bind (fun index => self.handlers.retrieve index)).map
    (fun v => v.2)
  match handler with
  | some h =>
      let (s, resp, hctx) :=
        ops.response_filter h session response (ctx.map (fun c => c.handler))
      (s, resp,
        match ctx, hctx with
        | some c, some hc => some { c with handler := hc }
        | some c, none => some c
        | none, _ => none)
  | none => (session, response, ctx)

/-- Embeds `RequestFilter::logging` for `VirtualHostsHandler`: recover the
handler via `as_inner` and delegate; do nothing otherwise. -/
def logging (ops : PhaseOps H Ctx) (self : VirtualHostsHandler H)
    (session : Session) (e : Option Err) (ctx : VirtualHostsCtx Ctx) :
    Session × VirtualHostsCtx Ctx :=
  match as_inner self ctx with
  | some handler =>
      let (s, hctx) := ops.logging handler session e ctx.handler
      (s, { ctx with handler := hctx })
  | none => (session, ctx)

/-! ## The configuration tree

The configuration types live in `virtual-hosts-module/src/configuration.rs`,
which is not part of the verified tree; they are modelled from the spec's
data model (§3). -/

/-- Modelled from the spec: `PathRule` — a path string plus an `exact` flag
(a rule ending in the wildcard marker is a prefix rule). -/
structure PathRule where
  path : String
  exact : Bool
deriving DecidableEq, Repr

/-- Modelled from the spec: the Path Rule Normalizer, turning a configured
sub-path key into its canonical `PathRule`. -/
def PathRule.parse (s : String) : PathRule :=
  if s.endsWith "/*" then ⟨s.dropRight 2, false⟩ else ⟨s, true⟩

/-- Modelled from the spec: one sub-path override — the `strip_prefix` flag
(field `stripPrefixFlag` here) and a handler configuration. -/
structure SubPathConf (C : Type) where
  stripPrefixFlag : Bool
  config : C
deriving DecidableEq, Repr

/-- Modelled from the spec: one virtual host's configuration — the
`default` flag, the host-level handler configuration, and the ordered
mapping from sub-path rules to overrides. -/
structure HostConf (C : Type) where
  default : Bool
  config : C
  subpaths : List (PathRule × SubPathConf C)
deriving DecidableEq, Repr

/-- Modelled from the spec: `VirtualHostsConf` — the ordered mapping from
host-name lists to per-host configurations. -/
structure VirtualHostsConf (C : Type) where
  vhosts : List (List String × HostConf C)
deriving DecidableEq, Repr

/-- Diagnostics emitted with `warn!` during compilation, modelled as values
so that the non-fatal-warning behavior is observable. -/
inductive Warning where
  | duplicateDefault
  | emptyHost
deriving DecidableEq, Repr

/-- Lexicographic comparison of character lists by code point.  UTF-8 byte
order coincides with code-point order, so this is the order `Ord` gives
`String` in Rust. -/
def listLt : List Char → List Char → Bool
  | [], [] => false
  | [], _ :: _ => true
  | _ :: _, [] => false
  | c :: cs, d :: ds =>
      if c.toNat < d.toNat then true
      else if d.toNat < c.toNat then false
      else listLt cs ds

/-- Lexicographic order on strings. -/
def strLt (a b : String) : Bool := listLt a.toList b.toList

/-- Insertion into a sorted duplicate-free list of strings: the model of
`BTreeSet<String>::insert`. -/
def insertSorted (x : String) : List String → List String
  | [] => [x]
  | y :: ys =>
      if x = y then y :: ys
      else if strLt x y then x :: y :: ys
      else y :: insertSorted x ys

/-- Stable insertion used by the insertion sort below: the element is placed
before the first element it compares `le` to, so elements comparing equal
keep their original relative order. -/
def insertLe (le : α → α → Bool) (x : α) : List α → List α
  | [] => [x]
  | y :: ys => if le x y then x :: y :: ys else y :: insertLe le x ys

/-- Embeds `subpaths.sort_by_key(|(rule, _)| rule.exact)`.  Rust's
`sort_by_key` is a stable sort, and all stable sorts agree extensionally;
the embedding uses a stable insertion sort ordered by the Boolean `exact`
key (`false` before `true`). -/
def sortByExact (l : List (PathRule × SubPathConf C)) :
    List (PathRule × SubPathConf C) :=
  l.foldr (insertLe (fun a b => !a.1.exact || b.1.exact)) []

/-- The strip marker computed for one sub-path rule in `try_from`:
`Some(Path::new(&rule.path))` exactly when `strip_prefix` is set. -/
def ruleStrip (rule : PathRule) (conf : SubPathConf C) : Option Path :=
  if conf.stripPrefixFlag then some (Path.new rule.path) else none

/-- The table entry pushed for one `(alias, sub-path rule)` pair in
`try_from`: payload `(strip_path, handler)`, with the same pair as the
fallback payload exactly when the rule is not exact. -/
def subpathEntry (host : String) (rule : PathRule) (strip_path : Option Path)
    (handler : H) : RouterEntry (Option Path × H) :=
  ⟨host, rule.path, (strip_path, handler),
    if rule.exact then none else some (strip_path, handler)⟩

/-- The root entry pushed for one alias in `try_from`: the empty rule with
the host's base handler, no strip marker, and the same payload as the
fallback. -/
def rootEntry (host : String) (handler : H) : RouterEntry (Option Path × H) :=
  ⟨host, "", (none, handler), some (none, handler)⟩

/-- The sub-path loop of `try_from`: convert each rule's handler
configuration, compute the strip marker, and push one entry per alias. -/
def subpathEntries (tryIntoH : C → Except Err H) (names : List String) :
    List (PathRule × SubPathConf C) →
      Except Err (List (RouterEntry (Option Path × H)))
  | [] => Except.ok []
  | (rule, conf) :: rest => do
      let handler ← tryIntoH conf.config
      let strip_path := ruleStrip rule conf
      let these := names.map (fun host => subpathEntry host rule strip_path handler)
      let more ← subpathEntries tryIntoH names rest
      Except.ok (these ++ more)

/-- The loop state of `try_from`: the builder's entries, the recorded
default host's names, and the diagnostics emitted so far. -/
structure CompileState (H : Type) where
  entries : RouterBuilder (Option Path × H)
  dflt : Option (List String)
  warnings : List Warning
deriving Repr

/-- The ordered unique name set of one virtual host (`names` in
`try_from`): the empty-string default sentinel when this host becomes the
default, extended with the host's non-empty names. -/
def hostNames (hosts : List String) (base : List String) : List String :=
  (hosts.filter (fun h => h ≠ "")).foldl (fun s h => insertSorted h s) base

/-- The `default`-flag resolution of one iteration of `try_from`'s outer
loop: the base of the name set (the empty-string sentinel when this host
becomes the default), the new recorded default, and the diagnostics (a
`duplicateDefault` warning when a default was already recorded — the
earlier one is kept). -/
def defaultResolve (dflt : Option (List String)) (flag : Bool)
    (hosts : List String) :
    List String × Option (List String) × List Warning :=
  if flag then
    match dflt with
    | some _ => ([], dflt, [Warning.duplicateDefault])
    | none => ([""], some hosts, [])
  else ([], dflt, [])

/-- One iteration of `try_from`'s outer loop, expressed as the entry and
diagnostic lists it appends and the new recorded default; only the
previously recorded default (`dflt`) influences the iteration. -/
def processHostDelta (tryIntoH : C → Except Err H) (dflt : Option (List String))
    (hosts : List String) (host_conf : HostConf C) :
    Except Err (List (RouterEntry (Option Path × H)) × Option (List String) ×
      List Warning) := do
  let handler ← tryIntoH host_conf.config
  let (base, dflt1, ws1) := defaultResolve dflt host_conf.default hosts
  let ws2 := (hosts.filter (fun h => h = "")).map (fun _ => Warning.emptyHost)
  let names := hostNames hosts base
  let roots := names.map (fun host => rootEntry host handler)
  let sorted := sortByExact host_conf.subpaths
  let subs ← subpathEntries tryIntoH names sorted
  Except.ok (roots ++ subs, dflt1, ws1 ++ ws2)

/-- One iteration of `try_from`'s outer loop over `conf.vhosts`: convert the
host-level handler, resolve the `default` flag (first registered default
wins, later ones only emit a diagnostic), drop empty host names with a
diagnostic, build the ordered unique name set, push the root entries, and
push the sub-path entries in sorted order. -/
def processHost (tryIntoH : C → Except Err H) (st : CompileState H)
    (hosts : List String) (host_conf : HostConf C) :
    Except Err (CompileState H) := do
  let (entries, dflt1, ws) ← processHostDelta tryIntoH st.dflt hosts host_conf
  Except.ok ⟨st.entries ++ entries, dflt1, st.warnings ++ ws⟩

/-- The outer loop of `try_from` over `conf.vhosts`, starting from an
arbitrary loop state. -/
def compileFold (tryIntoH : C → Except Err H)
    (l : List (List String × HostConf C)) (st : CompileState H) :
    Except Err (CompileState H) :=
  l.foldlM (fun st hc => processHost tryIntoH st hc.1 hc.2) st

/-- Embeds `TryFrom<VirtualHostsConf<C>> for VirtualHostsHandler<H>`:
fold `processHost` over the configured virtual hosts and build the table.
The conversion `C -> H` is passed explicitly as `tryIntoH`; the emitted
diagnostics are returned alongside the handler. -/
def try_from (tryIntoH : C → Except Err H) (conf : VirtualHostsConf C) :
    Except Err (VirtualHostsHandler H × List Warning) := do
  let st ← compileFold tryIntoH conf.vhosts (⟨[], none, []⟩ : CompileState H)
  Except.ok (⟨RouterBuilder.build st.entries⟩, st.warnings)

/-- Whether a fallible computation succeeded. -/
def exceptOk : Except ε α → Bool
  | Except.ok _ => true
  | Except.error _ => false

/-- Whether every handler configuration in the tree converts successfully. -/
def conversionsOk (tryIntoH : C → Except Err H) (conf : VirtualHostsConf C) :
    Bool :=
  conf.vhosts.all (fun hc =>
    exceptOk (tryIntoH hc.2.config) &&
      hc.2.subpaths.all (fun rc => exceptOk (tryIntoH rc.2.config)))

/-- Clears the `default` flag on every virtual host after the first flagged
one (`seen` records whether a flagged host was already passed). -/
def clearLater : Bool → List (List String × HostConf C) →
    List (List String × HostConf C)
  | _, [] => []
  | seen, hc :: rest =>
      if hc.2.default then
        if seen then
          (hc.1, { hc.2 with default := false }) :: clearLater true rest
        else hc :: clearLater true rest
      else hc :: clearLater seen rest

/-- The configuration with every `default` flag after the first flagged
host cleared. -/
def clearLaterDefaults (conf : VirtualHostsConf C) : VirtualHostsConf C :=
  ⟨clearLater false conf.vhosts⟩

/-- The host-independent part of a routing entry: its rule, payload and
fallback payload. -/
def entryShape (e : RouterEntry V) : String × V × Option V :=
  (e.rule, e.value, e.fallback)

/-! ## Concrete fixtures used by witnesses -/

/-- A concrete inner-handler operation set over `Nat` handlers and unit
contexts: `request_filter` reports `Handled`, `upstream_peer` proposes the
handler's identifier as the peer, the remaining phases leave all state
unchanged. -/
def natOps : PhaseOps Nat Unit :=
  ⟨(), fun _ s c => (s, c, Except.ok RequestFilterResult.Handled),
    fun h s c => (s, c, Except.ok (some h)),
    fun _ s r c => (s, r, c),
    fun _ s _ c => (s, c)⟩

/-- A handler with an empty routing table. -/
def emptyVH : VirtualHostsHandler Nat := ⟨⟨[]⟩⟩

/-- A handler whose table has exactly one entry: the root entry of host
`x`, payload handler `42`, at index `0`. -/
def oneEntryVH : VirtualHostsHandler Nat :=
  ⟨⟨[⟨"x", "", (none, 42), some (none, 42)⟩]⟩⟩

/-- A handler whose table has exactly one entry: the root entry of the
empty-string default host, payload handler `5`, at index `0`. -/
def defaultVH : VirtualHostsHandler Nat :=
  ⟨⟨[⟨"", "", (none, 5), some (none, 5)⟩]⟩⟩

/-- A session for host `example.net` requesting `/`. -/
def sessNet : Session := ⟨some "example.net", ⟨none, none, ⟨"/", none⟩⟩, ⟨none⟩⟩

/-- A session with no host at all requesting `/x`. -/
def sessNoHost : Session := ⟨none, ⟨none, none, ⟨"/x", none⟩⟩, ⟨none⟩⟩

/-- A session for host `x` whose extension storage already carries the
cross-phase token for index `0`. -/
def sessToken : Session :=
  ⟨some "x", ⟨none, none, ⟨"/", none⟩⟩, ⟨some 0⟩⟩

/-- A conversion that always succeeds, used by concrete compiler runs. -/
def okTih : Nat → Except Err Nat := Except.ok

/-- A concrete host configuration with one exact rule (listed first) and
one prefix rule (listed second). -/
def exHC : HostConf Nat :=
  ⟨false, 7, [(⟨"/a", true⟩, ⟨false, 1⟩), (⟨"/b", false⟩, ⟨true, 2⟩)]⟩

/-- A one-host configuration built around `exHC`. -/
def exConf : VirtualHostsConf Nat := ⟨[(["h.com"], exHC)]⟩

/-- The empty compile state `try_from` starts from. -/
def st0 : CompileState Nat := ⟨[], none, []⟩

/-- The compiled table of `exConf`: the root entry, then the prefix rule's
entry, then the exact rule's entry. -/
def exVH : VirtualHostsHandler Nat :=
  ⟨⟨[⟨"h.com", "", (none, 7), some (none, 7)⟩,
     ⟨"h.com", "/b", (some ⟨["b"]⟩, 2), some (some ⟨["b"]⟩, 2)⟩,
     ⟨"h.com", "/a", (none, 1), none⟩]⟩⟩

/-- The compile state after processing `exHC`. -/
def exSt : CompileState Nat := ⟨exVH.handlers.entries, none, []⟩

/-- Sortedness in the strict lexicographic order. -/
def SortedStr (l : List String) : Prop :=
  l.Pairwise (fun a b => strLt a b = true)

/-- A host configuration with one exact rule, used with two aliases. -/
def exHC2 : HostConf Nat := ⟨false, 7, [(⟨"/a", true⟩, ⟨false, 1⟩)]⟩

/-- The compile state after processing `exHC2` for aliases
`["b.com", "a.com"]`. -/
def exSt2 : CompileState Nat :=
  ⟨[⟨"a.com", "", (none, 7), some (none, 7)⟩,
    ⟨"b.com", "", (none, 7), some (none, 7)⟩,
    ⟨"a.com", "/a", (none, 1), none⟩,
    ⟨"b.com", "/a", (none, 1), none⟩], none, []⟩

/-- A conversion that fails on the configuration value `0` with a fixed
description and succeeds otherwise. -/
def failTih : Nat → Except Err Nat :=
  fun n => if n = 0 then Except.error "bad handler" else Except.ok n

/-- A configuration whose only sub-path rule carries the failing handler
configuration `0`. -/
def badConf : VirtualHostsConf Nat :=
  ⟨[(["h.com"], ⟨false, 7, [(⟨"/a", true⟩, ⟨false, 0⟩)]⟩)]⟩

/-- A two-default configuration over `exHC2`-style hosts. -/
def dupConf : VirtualHostsConf Nat :=
  ⟨[(["a.com"], ⟨true, 1, []⟩), (["b.com"], ⟨true, 2, []⟩)]⟩

/-- A configuration with one stripping prefix rule `/subdir`. -/
def conf5 : VirtualHostsConf Nat :=
  ⟨[(["localhost"], ⟨false, 9, [(⟨"/subdir", false⟩, ⟨true, 3⟩)]⟩)]⟩

/-- The compiled table of `conf5`. -/
def vh5 : VirtualHostsHandler Nat :=
  ⟨⟨[⟨"localhost", "", (none, 9), some (none, 9)⟩,
     ⟨"localhost", "/subdir", (some ⟨["subdir"]⟩, 3),
       some (some ⟨["subdir"]⟩, 3)⟩]⟩⟩

/-- A request for `/subdir/xyz?abc` on `localhost`. -/
def sess5 : Session :=
  ⟨some "localhost", ⟨none, none, ⟨"/subdir/xyz", some "abc"⟩⟩, ⟨none⟩⟩

/-! ## Claims about the dispatch phases -/

/-- Claim C6: when the `(host, path)` lookup finds no entry (the
default-host fallback included), `request_filter` returns `Unhandled` and
leaves the session, the context and hence every piece of per-request state
unchanged; since the statement holds for every inner operation set `ops`,
no downstream handler can have been invoked. -/
theorem C6_theorem (ops : PhaseOps H Ctx) (self : VirtualHostsHandler H)
    (session : Session) (ctx : VirtualHostsCtx Ctx)
    (h : self.handlers.lookup (session.host.getD "") session.uri.path = none) :
    request_filter ops self session ctx =
      (session, ctx, Except.ok RequestFilterResult.Unhandled) := by
  unfold request_filter
  simp only [h]

/-- Witness for C6 at a concrete input: an unknown host against an empty
table yields `Unhandled` with the state untouched. -/
theorem C6_witness :
    request_filter natOps emptyVH sessNet ⟨none, ()⟩ =
      (sessNet, ⟨none, ()⟩, Except.ok RequestFilterResult.Unhandled) :=
  C6_theorem natOps emptyVH sessNet ⟨none, ()⟩ rfl

/-- Claim C9: when the session reports no host at all, `request_filter`
performs the table lookup with the empty host string — so the request
resolves through the default virtual host's entries when present and is
`Unhandled` otherwise. -/
theorem C9_theorem (ops : PhaseOps H Ctx) (self : VirtualHostsHandler H)
    (session : Session) (ctx : VirtualHostsCtx Ctx) (h : session.host = none) :
    request_filter ops self session ctx =
      match self.handlers.lookup "" session.uri.path with
      | some result => request_filter_found ops session ctx session.uri.path result
      | none => (session, ctx, Except.ok RequestFilterResult.Unhandled) := by
  unfold request_filter
  rw [h]
  rfl

/-- Witness for C9 at a concrete input: a host-less request against a table
with a default-host entry resolves through that entry. -/
theorem C9_witness :
    request_filter natOps defaultVH sessNoHost ⟨none, ()⟩ =
      match defaultVH.handlers.lookup "" sessNoHost.uri.path with
      | some result =>
          request_filter_found natOps sessNoHost ⟨none, ()⟩ sessNoHost.uri.path
            result
      | none => (sessNoHost, ⟨none, ()⟩, Except.ok RequestFilterResult.Unhandled) :=
  C9_theorem natOps defaultVH sessNoHost ⟨none, ()⟩ rfl

/-- Claim C1, counterexample: the claim states that the upstream-peer phase
falls back to the session-attached token when the context's index slot is
empty.  At this concrete input the context slot is empty, the session token
holds the valid index `0` whose handler would propose peer `42`, yet
`upstream_peer` reports no peer instead of delegating — so the claimed
fallback does not happen in the upstream-peer (or logging) phase. -/
theorem C1_counterexample :
    (upstream_peer natOps oneEntryVH sessToken ⟨none, ()⟩).2.2 =
        Except.ok none ∧
    sessToken.extensions.indexEntry = some 0 ∧
    (oneEntryVH.handlers.retrieve 0).map (fun v => v.2) = some 42 ∧
    (natOps.upstream_peer 42 sessToken ()).2.2 = Except.ok (some 42) :=
  ⟨rfl, rfl, rfl, rfl⟩

/-- Claim C1, amended: only the response-shaping phase checks the
per-request context's index first and falls back to the session-attached
token; the upstream-peer and logging phases recover the selected handler
through the context's index alone; in every phase, failure to recover a
handler degrades to the no-peer / no-op outcome with all state unchanged.
The eight parts: upstream-peer with an unset context index is a no-op
regardless of the session token; so is logging; upstream-peer with a
recorded retrievable index delegates to the retrieved handler; so does
logging; upstream-peer with a recorded but unretrievable index degrades to
the no-peer outcome with all state unchanged; so does logging; response
shaping delegates to the handler recovered from the context index first,
else from the session token; response shaping with no recoverable index is
a no-op. -/
theorem C1_theorem :
    (∀ (H Ctx : Type) (ops : PhaseOps H Ctx) (self : VirtualHostsHandler H)
        (session : Session) (c : Ctx),
        upstream_peer ops self session ⟨none, c⟩ =
          (session, ⟨none, c⟩, Except.ok none)) ∧
    (∀ (H Ctx : Type) (ops : PhaseOps H Ctx) (self : VirtualHostsHandler H)
        (session : Session) (e : Option Err) (c : Ctx),
        logging ops self session e ⟨none, c⟩ = (session, ⟨none, c⟩)) ∧
    (∀ (H Ctx : Type) (ops : PhaseOps H Ctx) (self : VirtualHostsHandler H)
        (session : Session) (i : Nat) (c : Ctx) (v : Option Path × H),
        self.handlers.retrieve i = some v →
        upstream_peer ops self session ⟨some i, c⟩ =
          ((ops.upstream_peer v.2 session c).1,
            ⟨some i, (ops.upstream_peer v.2 session c).2.1⟩,
            (ops.upstream_peer v.2 session c).2.2)) ∧
    (∀ (H Ctx : Type) (ops : PhaseOps H Ctx) (self : VirtualHostsHandler H)
        (session : Session) (e : Option Err) (i : Nat) (c : Ctx)
        (v : Option Path × H),
        self.handlers.retrieve i = some v →
        logging ops self session e ⟨some i, c⟩ =
          ((ops.logging v.2 session e c).1,
            ⟨some i, (ops.logging v.2 session e c).2⟩)) ∧
    (∀ (H Ctx : Type) (ops : PhaseOps H Ctx) (self : VirtualHostsHandler H)
        (session : Session) (i : Nat) (c : Ctx),
        self.handlers.retrieve i = none →
        upstream_peer ops self session ⟨some i, c⟩ =
          (session, ⟨some i, c⟩, Except.ok none)) ∧
    (∀ (H Ctx : Type) (ops : PhaseOps H Ctx) (self : VirtualHostsHandler H)
        (session : Session) (e : Option Err) (i : Nat) (c : Ctx),
        self.handlers.retrieve i = none →
        logging ops self session e ⟨some i, c⟩ = (session, ⟨some i, c⟩)) ∧
    (∀ (H Ctx : Type) (ops : PhaseOps H Ctx) (self : VirtualHostsHandler H)
        (session : Session) (response : ResponseHeader)
        (ctx : Option (VirtualHostsCtx Ctx)) (i : Nat) (v : Option Path × H),
        (match ctx.bind (fun c => c.index) with
          | some j => some j
          | none => session.extensions.indexEntry) = some i →
        self.handlers.retrieve i = some v →
        response_filter ops self session response ctx =
          ((ops.response_filter v.2 session response
              (ctx.map (fun c => c.handler))).1,
            (ops.response_filter v.2 session response
              (ctx.map (fun c => c.handler))).2.1,
            match ctx, (ops.response_filter v.2 session response
              (ctx.map (fun c => c.handler))).2.2 with
            | some c, some hc => some { c with handler := hc }
            | some c, none => some c
            | none, _ => none)) ∧
    (∀ (H Ctx : Type) (ops : PhaseOps H Ctx) (self : VirtualHostsHandler H)
        (session : Session) (response : ResponseHeader)
        (ctx : Option (VirtualHostsCtx Ctx)),
        ((match ctx.bind (fun c => c.index) with
          | some j => some j
          | none => session.extensions.indexEntry).bind
            (fun index => self.handlers.retrieve index)) = none →
        response_filter ops self session response ctx =
          (session, response, ctx)) := by
  refine ⟨fun _ _ _ _ _ _ => rfl, fun _ _ _ _ _ _ _ => rfl, ?_, ?_, ?_, ?_, ?_, ?_⟩
  · intro H Ctx ops self session i c v hr
    unfold upstream_peer as_inner
    simp [hr]
  · intro H Ctx ops self session e i c v hr
    unfold logging as_inner
    simp [hr]
  · intro H Ctx ops self session i c hr
    unfold upstream_peer as_inner
    simp [hr]
  · intro H Ctx ops self session e i c hr
    unfold logging as_inner
    simp [hr]
  · intro H Ctx ops self session response ctx i v hi hr
    unfold response_filter
    rw [hi]
    simp [hr]
  · intro H Ctx ops self session response ctx h
    unfold response_filter
    simp only [h]
    simp [h]

/-- Witness for C1's amended claim at concrete inputs: an unset context
index makes the upstream-peer phase report no peer even though the session
token is set; logging with the valid recorded index `0` delegates to
handler `42` (here its delegate leaves the state unchanged); a recorded but
unretrievable index `7` degrades both the upstream-peer and the logging
phase to the no-op with the state unchanged; and the response-shaping phase
run without any context recovers handler `42` through the token alone. -/
theorem C1_witness :
    upstream_peer natOps oneEntryVH sessToken ⟨none, ()⟩ =
        (sessToken, ⟨none, ()⟩, Except.ok none) ∧
    logging natOps oneEntryVH sessToken none ⟨some 0, ()⟩ =
        (sessToken, ⟨some 0, ()⟩) ∧
    upstream_peer natOps oneEntryVH sessToken ⟨some 7, ()⟩ =
        (sessToken, ⟨some 7, ()⟩, Except.ok none) ∧
    logging natOps oneEntryVH sessToken none ⟨some 7, ()⟩ =
        (sessToken, ⟨some 7, ()⟩) ∧
    response_filter natOps oneEntryVH sessToken 0 none = (sessToken, 0, none) :=
  ⟨C1_theorem.1 Nat Unit natOps oneEntryVH sessToken (),
    (C1_theorem.2.2.2.1 Nat Unit natOps oneEntryVH sessToken none 0 ()
      (none, 42) rfl).trans rfl,
    C1_theorem.2.2.2.2.1 Nat Unit natOps oneEntryVH sessToken 7 () rfl,
    C1_theorem.2.2.2.2.2.1 Nat Unit natOps oneEntryVH sessToken none 7 () rfl,
    (C1_theorem.2.2.2.2.2.2.1 Nat Unit natOps oneEntryVH sessToken 0 none 0
      (none, 42) rfl rfl).trans rfl⟩

/-! ## Claims about `set_uri_path` -/

/-- Splitting at the first `?` leaves a list without one untouched. -/
theorem splitAtQuery_of_no_query (cs : List Char)
    (h : ∀ c ∈ cs, c ≠ Char.ofNat 63) : splitAtQuery cs = (cs, none) := by
  induction cs with
  | nil => rfl
  | cons c cs ih =>
      have hc : c ≠ Char.ofNat 63 := h c (List.mem_cons_self c cs)
      have ih' := ih (fun d hd => h d (List.mem_cons_of_mem c hd))
      simp [splitAtQuery, hc, ih']

/-- Splitting at the first `?` recovers the two halves of a string built
around one. -/
theorem splitAtQuery_append (p q : List Char)
    (h : ∀ c ∈ p, c ≠ Char.ofNat 63) :
    splitAtQuery (p ++ Char.ofNat 63 :: q) = (p, some q) := by
  induction p with
  | nil => simp [splitAtQuery]
  | cons c cs ih =>
      have hc : c ≠ Char.ofNat 63 := h c (List.mem_cons_self c cs)
      have ih' := ih (fun d hd => h d (List.mem_cons_of_mem c hd))
      simp [splitAtQuery, hc, ih']

/-- A valid path character is not the query delimiter. -/
theorem validPathChar_ne_q {c : Char} (h : validPathChar c = true) :
    c ≠ Char.ofNat 63 := by
  intro hc
  subst hc
  simp [validPathChar] at h

/-- Rebuilding a string from its character list is the identity. -/
theorem mk_toList (s : String) : (⟨s.toList⟩ : String) = s := by
  cases s
  rfl

/-- `set_uri_path` on valid inputs: when the given path bytes contain only
valid path characters, the original query (if any) is valid, and the URI's
scheme and authority are consistent, the result is the original URI with
exactly the given bytes as its path and the query preserved. -/
theorem set_uri_path_valid (uri : Uri) (path : String)
    (hsa : uri.scheme.isSome ↔ uri.authority.isSome)
    (hp : path.toList.all validPathChar = true)
    (hq : ∀ q, uri.query = some q → q.toList.all validQueryChar = true) :
    set_uri_path uri path = ⟨uri.scheme, uri.authority, ⟨path, uri.query⟩⟩ := by
  have hp' : ∀ c ∈ path.toList, validPathChar c = true := by
    intro c hc
    exact List.all_eq_true.mp hp c hc
  have hpq : ∀ c ∈ path.toList, c ≠ Char.ofNat 63 :=
    fun c hc => validPathChar_ne_q (hp' c hc)
  have hparse : PathAndQuery.parse
      (match uri.query with
        | some query => path ++ "?" ++ query
        | none => path) = some ⟨path, uri.query⟩ := by
    cases hu : uri.query with
    | none =>
        simp only [PathAndQuery.parse]
        rw [splitAtQuery_of_no_query path.toList hpq]
        simp only [validQueryOpt, hp, Bool.and_true, mk_toList]
        simp
    | some q =>
        have hq' := hq q hu
        simp only [PathAndQuery.parse]
        have hch : ('?' : Char) = Char.ofNat 63 := by decide
        have hlist : (path ++ "?" ++ q).toList =
            path.toList ++ Char.ofNat 63 :: q.toList := by
          simp only [String.toList, String.data_append]
          rw [List.append_assoc]
          simp [hch]
        rw [hlist, splitAtQuery_append path.toList q.toList hpq]
        simp only [validQueryOpt, hp, hq', Bool.and_self, Option.map_some,
          mk_toList]
        simp [mk_toList]
  simp only [set_uri_path]
  rw [hparse]
  rcases hs : uri.scheme with _ | sch
  · rcases ha : uri.authority with _ | auth
    · simp [Uri.fromParts]
    · exact absurd (hsa.mpr (by simp [ha])) (by simp [hs])
  · rcases ha : uri.authority with _ | auth
    · exact absurd (hsa.mp (by simp [hs])) (by simp [ha])
    · simp [Uri.fromParts]

/-- Claim C10, counterexample: at these concrete inputs `set_uri_path` does
not return a URI whose path is the given bytes, and a combined
path-and-query that fails to validate does not yield the original URI back.
A `?` in the path bytes migrates into the query of the result, and an
invalid byte in the path of a scheme-less URI produces the empty URI, not
the original one. -/
theorem C10_counterexample :
    set_uri_path ⟨none, none, ⟨"/abc", some "q"⟩⟩ "/a?b" =
        ⟨none, none, ⟨"/a", some "b?q"⟩⟩ ∧
    ("/a" : String) ≠ "/a?b" ∧
    set_uri_path ⟨none, none, ⟨"/abc", none⟩⟩ "/a b" =
        ⟨none, none, PathAndQuery.empty⟩ ∧
    (⟨none, none, PathAndQuery.empty⟩ : Uri) ≠ ⟨none, none, ⟨"/abc", none⟩⟩ := by
  refine ⟨by decide, by decide, by decide, by decide⟩

/-- Claim C10, amended: `set_uri_path` is total.  When the given path bytes
contain only valid path characters (in particular no `?`), the original
query (if any) is valid, and the URI's scheme and authority are consistent
(both present or both absent), the result is the original URI with exactly
the given bytes as its path and the query preserved.  When the combined
path-and-query string fails to validate, the path-and-query component is
dropped: a URI with a scheme is returned unchanged, while a scheme-less and
authority-less URI collapses to the empty URI. -/
theorem C10_theorem :
    (∀ (uri : Uri) (path : String),
        (uri.scheme.isSome ↔ uri.authority.isSome) →
        path.toList.all validPathChar = true →
        (∀ q, uri.query = some q → q.toList.all validQueryChar = true) →
        set_uri_path uri path = ⟨uri.scheme, uri.authority, ⟨path, uri.query⟩⟩) ∧
    (∀ (uri : Uri) (path : String),
        PathAndQuery.parse
            (match uri.query with
              | some query => path ++ "?" ++ query
              | none => path) = none →
        uri.scheme.isSome →
        set_uri_path uri path = uri) ∧
    (∀ (uri : Uri) (path : String),
        PathAndQuery.parse
            (match uri.query with
              | some query => path ++ "?" ++ query
              | none => path) = none →
        uri.scheme = none → uri.authority = none →
        set_uri_path uri path = ⟨none, none, PathAndQuery.empty⟩) := by
  refine ⟨fun uri path hsa hp hq => set_uri_path_valid uri path hsa hp hq, ?_, ?_⟩
  · intro uri path hparse hs
    simp only [set_uri_path]
    rw [hparse]
    rcases hsc : uri.scheme with _ | sch
    · rw [hsc] at hs
      simp at hs
    · simp [Uri.fromParts]
  · intro uri path hparse hs ha
    simp only [set_uri_path]
    rw [hparse, hs, ha]
    simp [Uri.fromParts]

/-- Witness for C10's amended claim at concrete inputs: a valid rewrite
keeps the query, and an invalid byte with a scheme present returns the
original URI unchanged. -/
theorem C10_witness :
    set_uri_path ⟨none, none, ⟨"/abc", some "q"⟩⟩ "/xyz" =
        ⟨none, none, ⟨"/xyz", some "q"⟩⟩ ∧
    set_uri_path ⟨some "http", some "h", ⟨"/abc", none⟩⟩ "/a b" =
        ⟨some "http", some "h", ⟨"/abc", none⟩⟩ :=
  ⟨C10_theorem.1 ⟨none, none, ⟨"/abc", some "q"⟩⟩ "/xyz" (by decide) (by decide)
      (by intro q hq; cases hq; decide),
    C10_theorem.2.1 ⟨some "http", some "h", ⟨"/abc", none⟩⟩ "/a b" (by decide)
      (by decide)⟩

/-! ## Lemmas about the configuration compiler -/

/-- `insertLe` walks past every element that refuses `le x`. -/
theorem insertLe_append_not (le : α → α → Bool) (x : α) (A B : List α)
    (h : ∀ y ∈ A, le x y = false) :
    insertLe le x (A ++ B) = A ++ insertLe le x B := by
  induction A with
  | nil => rfl
  | cons a A ih =>
      have ha := h a (List.mem_cons_self a A)
      simp [insertLe, ha, ih (fun y hy => h y (List.mem_cons_of_mem a hy))]

/-- `insertLe` stops in front of a list whose elements all accept `le x`. -/
theorem insertLe_all (le : α → α → Bool) (x : α) (B : List α)
    (h : ∀ y ∈ B, le x y = true) : insertLe le x B = x :: B := by
  cases B with
  | nil => rfl
  | cons b B => simp [insertLe, h b (List.mem_cons_self b B)]

/-- The stable sort by the `exact` key is the partition of the rule list:
all prefix rules (in configuration order) followed by all exact rules (in
configuration order). -/
theorem sortByExact_eq (l : List (PathRule × SubPathConf C)) :
    sortByExact l =
      l.filter (fun x => !x.1.exact) ++ l.filter (fun x => x.1.exact) := by
  induction l with
  | nil => rfl
  | cons a l ih =>
      have step : sortByExact (a :: l) =
          insertLe (fun a b => !a.1.exact || b.1.exact) a (sortByExact l) := rfl
      rw [step, ih]
      by_cases ha : a.1.exact
      · rw [insertLe_append_not]
        · rw [insertLe_all]
          · simp [List.filter_cons, ha]
          · intro y hy
            have := (List.mem_filter.mp hy).2
            simp at this
            simp [ha, this]
        · intro y hy
          have := (List.mem_filter.mp hy).2
          simp at this
          simp [ha, this]
      · rw [insertLe_all]
        · simp [List.filter_cons, ha]
        · intro y _
          simp [ha]

/-- The stable sort by the `exact` key is a permutation of its input. -/
theorem sortByExact_perm (l : List (PathRule × SubPathConf C)) :
    (sortByExact l).Perm l := by
  rw [sortByExact_eq]
  have h := List.filter_append_perm (fun x => !x.1.exact) l
  refine List.Perm.trans ?_ h
  apply List.Perm.append_left
  apply List.Perm.of_eq
  apply List.filter_congr
  intro x _
  simp

/-- A successful sub-path loop run, decomposed at its first rule. -/
theorem subpathEntries_cons (tih : C → Except Err H) (names : List String)
    (rc : PathRule × SubPathConf C) (l : List (PathRule × SubPathConf C)) :
    subpathEntries tih names (rc :: l) =
      (tih rc.2.config).bind (fun handler =>
        (subpathEntries tih names l).bind (fun more =>
          Except.ok ((names.map (fun host =>
            subpathEntry host rc.1 (ruleStrip rc.1 rc.2) handler)) ++ more))) := by
  obtain ⟨rule, conf⟩ := rc
  simp only [subpathEntries]
  cases tih conf.config with
  | error e => rfl
  | ok handler =>
      cases subpathEntries tih names l with
      | error e => rfl
      | ok more => rfl

/-- The sub-path loop succeeds when every rule's conversion does. -/
theorem subpathEntries_ok (tih : C → Except Err H) (names : List String)
    (l : List (PathRule × SubPathConf C))
    (h : ∀ rc ∈ l, exceptOk (tih rc.2.config) = true) :
    ∃ es, subpathEntries tih names l = Except.ok es := by
  induction l with
  | nil => exact ⟨[], rfl⟩
  | cons rc l ih =>
      obtain ⟨es, hes⟩ := ih (fun x hx => h x (List.mem_cons_of_mem rc hx))
      have hrc := h rc (List.mem_cons_self rc l)
      cases hc : tih rc.2.config with
      | error e => rw [hc] at hrc; simp [exceptOk] at hrc
      | ok handler =>
          refine ⟨(names.map (fun host =>
            subpathEntry host rc.1 (ruleStrip rc.1 rc.2) handler)) ++ es, ?_⟩
          rw [subpathEntries_cons, hc, hes]
          rfl

/-- Every entry produced by the sub-path loop comes from one of the rules:
it is the entry of that rule for one of the names, with the rule's own
converted handler and strip marker. -/
theorem subpathEntries_mem (tih : C → Except Err H) (names : List String)
    (l : List (PathRule × SubPathConf C)) (es : List (RouterEntry (Option Path × H)))
    (he : subpathEntries tih names l = Except.ok es) :
    ∀ e ∈ es, ∃ rc ∈ l, ∃ h, tih rc.2.config = Except.ok h ∧
      ∃ n ∈ names, e = subpathEntry n rc.1 (ruleStrip rc.1 rc.2) h := by
  induction l generalizing es with
  | nil =>
      simp only [subpathEntries] at he
      cases he
      intro e he'
      simp at he'
  | cons rc l ih =>
      rw [subpathEntries_cons] at he
      cases hc : tih rc.2.config with
      | error e0 => rw [hc] at he; cases he
      | ok handler =>
          rw [hc] at he
          cases hm : subpathEntries tih names l with
          | error e0 => rw [hm] at he; cases he
          | ok more =>
              rw [hm] at he
              cases he
              intro e hmem
              rcases List.mem_append.mp hmem with h1 | h2
              · obtain ⟨n, hn, hne⟩ := List.mem_map.mp h1
                exact ⟨rc, List.mem_cons_self rc l, handler, hc, n, hn, hne.symm⟩
              · obtain ⟨rc', hrc', hh, hhh, n, hn, hne⟩ := ih more hm e h2
                exact ⟨rc', List.mem_cons_of_mem rc hrc', hh, hhh, n, hn, hne⟩

/-- Conversely, every rule contributes its entry for every name. -/
theorem subpathEntries_mem_of (tih : C → Except Err H) (names : List String)
    (l : List (PathRule × SubPathConf C)) (es : List (RouterEntry (Option Path × H)))
    (he : subpathEntries tih names l = Except.ok es) :
    ∀ rc ∈ l, ∀ n ∈ names, ∃ h, tih rc.2.config = Except.ok h ∧
      subpathEntry n rc.1 (ruleStrip rc.1 rc.2) h ∈ es := by
  induction l generalizing es with
  | nil => intro rc hrc; simp at hrc
  | cons rc0 l ih =>
      rw [subpathEntries_cons] at he
      cases hc : tih rc0.2.config with
      | error e0 => rw [hc] at he; cases he
      | ok handler =>
          rw [hc] at he
          cases hm : subpathEntries tih names l with
          | error e0 => rw [hm] at he; cases he
          | ok more =>
              rw [hm] at he
              cases he
              intro rc hrc n hn
              rcases List.mem_cons.mp hrc with h1 | h2
              · subst h1
                refine ⟨handler, hc, List.mem_append.mpr (Or.inl ?_)⟩
                exact List.mem_map.mpr ⟨n, hn, rfl⟩
              · obtain ⟨h, hh, hmem⟩ := ih more hm rc h2 n hn
                exact ⟨h, hh, List.mem_append.mpr (Or.inr hmem)⟩

/-- A failing sub-path loop fails with one of its rules' own conversion
errors. -/
theorem subpathEntries_error (tih : C → Except Err H) (names : List String)
    (l : List (PathRule × SubPathConf C)) (e : Err)
    (he : subpathEntries tih names l = Except.error e) :
    ∃ rc ∈ l, tih rc.2.config = Except.error e := by
  induction l with
  | nil => simp only [subpathEntries] at he; cases he
  | cons rc l ih =>
      rw [subpathEntries_cons] at he
      cases hc : tih rc.2.config with
      | error e0 =>
          rw [hc] at he
          cases he
          exact ⟨rc, List.mem_cons_self rc l, hc⟩
      | ok handler =>
          rw [hc] at he
          cases hm : subpathEntries tih names l with
          | error e0 =>
              rw [hm] at he
              cases he
              obtain ⟨rc', hrc', h⟩ := ih hm
              exact ⟨rc', List.mem_cons_of_mem rc hrc', h⟩
          | ok more => rw [hm] at he; cases he

/-- A successful `processHost` run, decomposed: the host handler converted,
the sorted sub-path entries were built, and the new state appends the root
entries and sub-path entries and diagnostics. -/
theorem processHost_elim (tih : C → Except Err H) (st : CompileState H)
    (hosts : List String) (hc : HostConf C) (st' : CompileState H)
    (h : processHost tih st hosts hc = Except.ok st') :
    ∃ handler subs,
      tih hc.config = Except.ok handler ∧
      subpathEntries tih
          (hostNames hosts (defaultResolve st.dflt hc.default hosts).1)
          (sortByExact hc.subpaths) = Except.ok subs ∧
      st' = ⟨st.entries ++
          ((hostNames hosts (defaultResolve st.dflt hc.default hosts).1).map
            (fun n => rootEntry n handler) ++ subs),
        (defaultResolve st.dflt hc.default hosts).2.1,
        st.warnings ++ ((defaultResolve st.dflt hc.default hosts).2.2 ++
          (hosts.filter (fun h => h = "")).map (fun _ => Warning.emptyHost))⟩ := by
  unfold processHost processHostDelta at h
  rcases hdr : defaultResolve st.dflt hc.default hosts with ⟨base, dflt1, ws1⟩
  rw [hdr] at h
  cases hh : tih hc.config with
  | error e => rw [hh] at h; cases h
  | ok handler =>
      rw [hh] at h
      cases hs : subpathEntries tih (hostNames hosts base) (sortByExact hc.subpaths) with
      | error e =>
          simp only [Except.bind] at h
          rw [hs] at h
          cases h
      | ok subs =>
          simp only [Except.bind] at h
          rw [hs] at h
          cases h
          exact ⟨handler, subs, rfl, rfl, rfl⟩

/-- A computation whose success flag is set has a success value. -/
theorem exists_ok_of_exceptOk {x : Except ε α} (h : exceptOk x = true) :
    ∃ a, x = Except.ok a := by
  cases x with
  | ok a => exact ⟨a, rfl⟩
  | error e => simp [exceptOk] at h

/-- `processHost` succeeds when the host's own conversions succeed. -/
theorem processHost_ok (tih : C → Except Err H) (st : CompileState H)
    (hosts : List String) (hc : HostConf C)
    (h1 : exceptOk (tih hc.config) = true)
    (h2 : ∀ rc ∈ hc.subpaths, exceptOk (tih rc.2.config) = true) :
    ∃ st', processHost tih st hosts hc = Except.ok st' := by
  rcases hdr : defaultResolve st.dflt hc.default hosts with ⟨base, dflt1, ws1⟩
  obtain ⟨handler, hh⟩ := exists_ok_of_exceptOk h1
  have h2' : ∀ rc ∈ sortByExact hc.subpaths, exceptOk (tih rc.2.config) = true :=
    fun rc hrc => h2 rc ((sortByExact_perm hc.subpaths).mem_iff.mp hrc)
  obtain ⟨subs, hsubs⟩ :=
    subpathEntries_ok tih (hostNames hosts base) (sortByExact hc.subpaths) h2'
  apply exists_ok_of_exceptOk
  unfold processHost processHostDelta
  rw [hh, hdr]
  simp only [Except.bind]
  rw [hsubs]
  rfl

/-- A failing `processHost` run fails with one of this host's own
conversion errors. -/
theorem processHost_error (tih : C → Except Err H) (st : CompileState H)
    (hosts : List String) (hc : HostConf C) (e : Err)
    (h : processHost tih st hosts hc = Except.error e) :
    tih hc.config = Except.error e ∨
      ∃ rc ∈ hc.subpaths, tih rc.2.config = Except.error e := by
  unfold processHost processHostDelta at h
  rcases hdr : defaultResolve st.dflt hc.default hosts with ⟨base, dflt1, ws1⟩
  rw [hdr] at h
  cases hh : tih hc.config with
  | error e0 =>
      rw [hh] at h
      cases h
      exact Or.inl rfl
  | ok handler =>
      rw [hh] at h
      cases hs : subpathEntries tih (hostNames hosts base) (sortByExact hc.subpaths) with
      | error e0 =>
          simp only [Except.bind] at h
          rw [hs] at h
          cases h
          obtain ⟨rc, hrc, herr⟩ := subpathEntries_error _ _ _ _ hs
          exact Or.inr ⟨rc, (sortByExact_perm hc.subpaths).mem_iff.mp hrc, herr⟩
      | ok subs =>
          simp only [Except.bind] at h
          rw [hs] at h
          cases h

/-- The outer loop decomposed at its first virtual host. -/
theorem compileFold_cons (tih : C → Except Err H)
    (hc : List String × HostConf C) (l : List (List String × HostConf C))
    (st : CompileState H) :
    compileFold tih (hc :: l) st =
      (processHost tih st hc.1 hc.2).bind (fun st1 => compileFold tih l st1) := by
  simp only [compileFold, List.foldlM_cons]
  rfl

/-- Every entry of a compiled state is inherited from the starting state,
or is a root entry (same payload as fallback, no strip marker), or is the
sub-path entry of one of the configured rules. -/
theorem compileFold_entries_mem (tih : C → Except Err H)
    (l : List (List String × HostConf C)) (st st' : CompileState H)
    (h : compileFold tih l st = Except.ok st') :
    ∀ e ∈ st'.entries, e ∈ st.entries ∨
      (∃ h', e = rootEntry e.host h') ∨
      ∃ hc ∈ l, ∃ rc ∈ hc.2.subpaths, ∃ hh, tih rc.2.config = Except.ok hh ∧
        ∃ n, e = subpathEntry n rc.1 (ruleStrip rc.1 rc.2) hh := by
  induction l generalizing st with
  | nil =>
      simp only [compileFold, List.foldlM_nil] at h
      cases h
      intro e he
      exact Or.inl he
  | cons hc l ih =>
      rw [compileFold_cons] at h
      cases hp : processHost tih st hc.1 hc.2 with
      | error e0 => rw [hp] at h; cases h
      | ok st1 =>
          rw [hp] at h
          intro e he
          rcases ih st1 h e he with h1 | h2 | h3
          · obtain ⟨handler, subs, hh, hsubs, hst⟩ :=
              processHost_elim tih st hc.1 hc.2 st1 hp
            rw [hst] at h1
            simp only [CompileState.entries] at h1 -- adjust
            rcases List.mem_append.mp h1 with ha | hb
            · exact Or.inl ha
            · rcases List.mem_append.mp hb with hr | hs2
              · obtain ⟨n, _, hne⟩ := List.mem_map.mp hr
                refine Or.inr (Or.inl ⟨handler, ?_⟩)
                rw [← hne]
                rfl
              · obtain ⟨rc, hrc, hh2, hhh, n, _, hne⟩ :=
                  subpathEntries_mem tih _ _ subs hsubs e hs2
                exact Or.inr (Or.inr ⟨hc, List.mem_cons_self hc l, rc,
                  (sortByExact_perm hc.2.subpaths).mem_iff.mp hrc, hh2, hhh,
                  n, hne⟩)
          · exact Or.inr (Or.inl h2)
          · obtain ⟨hc', hhc', rest⟩ := h3
            exact Or.inr (Or.inr ⟨hc', List.mem_cons_of_mem hc hhc', rest⟩)

/-- Every entry of a compiled table is a root entry or the sub-path entry
of one of the configured rules. -/
theorem try_from_entry_cases (tih : C → Except Err H) (conf : VirtualHostsConf C)
    (vh : VirtualHostsHandler H) (ws : List Warning)
    (h : try_from tih conf = Except.ok (vh, ws)) :
    ∀ e ∈ vh.handlers.entries,
      (∃ h', e = rootEntry e.host h') ∨
      ∃ hc ∈ conf.vhosts, ∃ rc ∈ hc.2.subpaths, ∃ hh,
        tih rc.2.config = Except.ok hh ∧
        ∃ n, e = subpathEntry n rc.1 (ruleStrip rc.1 rc.2) hh := by
  intro e he
  have hfold : ∃ st, compileFold tih conf.vhosts
      (⟨[], none, []⟩ : CompileState H) = Except.ok st ∧
      vh.handlers.entries = st.entries := by
    unfold try_from at h
    cases hf : compileFold tih conf.vhosts (⟨[], none, []⟩ : CompileState H) with
    | error e0 => rw [hf] at h; cases h
    | ok st =>
        rw [hf] at h
        cases h
        exact ⟨st, rfl, rfl⟩
  obtain ⟨st, hf, hent⟩ := hfold
  rw [hent] at he
  rcases compileFold_entries_mem tih conf.vhosts _ st hf e he with h1 | h2 | h3
  · simp at h1
  · exact Or.inl h2
  · exact Or.inr h3

/-! ## Claims about the configuration compiler -/

/-- Claim C2: the fallback payload of a committed routing entry, whenever
present, equals the entry's own payload (first part, over the whole
compiled table); every sub-path entry produced by the sub-path loop carries
its rule's converted handler and strip marker as payload and has a fallback
exactly when the rule is a prefix (non-exact) rule, the fallback then being
the payload itself (second part); and every rule actually produces such an
entry for every registered alias (third part). -/
theorem C2_theorem {C H : Type} (tih : C → Except Err H) :
    (∀ (conf : VirtualHostsConf C) (vh : VirtualHostsHandler H)
        (ws : List Warning), try_from tih conf = Except.ok (vh, ws) →
        ∀ e ∈ vh.handlers.entries,
          e.fallback = none ∨ e.fallback = some e.value) ∧
    (∀ (names : List String) (l : List (PathRule × SubPathConf C))
        (es : List (RouterEntry (Option Path × H))),
        subpathEntries tih names l = Except.ok es →
        ∀ e ∈ es, ∃ rc ∈ l, ∃ h, tih rc.2.config = Except.ok h ∧
          e.value = (ruleStrip rc.1 rc.2, h) ∧
          (rc.1.exact = true → e.fallback = none) ∧
          (rc.1.exact = false → e.fallback = some e.value)) ∧
    (∀ (names : List String) (l : List (PathRule × SubPathConf C))
        (es : List (RouterEntry (Option Path × H))),
        subpathEntries tih names l = Except.ok es →
        ∀ rc ∈ l, ∀ n ∈ names, ∃ h, tih rc.2.config = Except.ok h ∧
          subpathEntry n rc.1 (ruleStrip rc.1 rc.2) h ∈ es) := by
  refine ⟨?_, ?_, subpathEntries_mem_of tih⟩
  · intro conf vh ws h e he
    rcases try_from_entry_cases tih conf vh ws h e he with h2 | h3
    · obtain ⟨h', hr⟩ := h2
      rw [hr]
      exact Or.inr rfl
    · obtain ⟨hc, _, rc, _, hh, _, n, hne⟩ := h3
      rw [hne]
      by_cases hex : rc.1.exact
      · exact Or.inl (by simp [subpathEntry, hex])
      · exact Or.inr (by simp [subpathEntry, hex])
  · intro names l es he e hmem
    obtain ⟨rc, hrc, h, hh, n, hn, hne⟩ :=
      subpathEntries_mem tih names l es he e hmem
    refine ⟨rc, hrc, h, hh, ?_, ?_, ?_⟩
    · rw [hne]
      rfl
    · intro hex
      rw [hne]
      simp [subpathEntry, hex]
    · intro hex
      rw [hne]
      simp [subpathEntry, hex]

/-- Claim C3: for one virtual host the stable sort commits all prefix rules
before all exact rules, keeping configuration order within each group (the
sort equals the partition), and a successful `processHost` run appends this
host's entries as the root entries followed by the sub-path entries of the
partitioned rule list. -/
theorem C3_theorem (tih : C → Except Err H) (st : CompileState H)
    (hosts : List String) (hc : HostConf C) (st' : CompileState H)
    (h : processHost tih st hosts hc = Except.ok st') :
    sortByExact hc.subpaths =
      hc.subpaths.filter (fun x => !x.1.exact) ++
        hc.subpaths.filter (fun x => x.1.exact) ∧
    ∃ handler subs,
      tih hc.config = Except.ok handler ∧
      subpathEntries tih
          (hostNames hosts (defaultResolve st.dflt hc.default hosts).1)
          (hc.subpaths.filter (fun x => !x.1.exact) ++
            hc.subpaths.filter (fun x => x.1.exact)) = Except.ok subs ∧
      st'.entries = st.entries ++
        ((hostNames hosts (defaultResolve st.dflt hc.default hosts).1).map
          (fun n => rootEntry n handler) ++ subs) := by
  obtain ⟨handler, subs, hh, hsubs, hst⟩ := processHost_elim tih st hosts hc st' h
  refine ⟨sortByExact_eq hc.subpaths, handler, subs, hh, ?_, ?_⟩
  · rw [← sortByExact_eq]
    exact hsubs
  · rw [hst]

/-- Witness for C2 at a concrete input: in the compiled table of `exConf`
every present fallback equals its entry's payload, and the sub-path loop's
output pairs exactness with the absence of the fallback. -/
theorem C2_witness :
    (∀ e ∈ exVH.handlers.entries, e.fallback = none ∨ e.fallback = some e.value) ∧
    (∀ e ∈ exVH.handlers.entries.drop 1,
      ∃ rc ∈ sortByExact exHC.subpaths, ∃ h, okTih rc.2.config = Except.ok h ∧
        e.value = (ruleStrip rc.1 rc.2, h) ∧
        (rc.1.exact = true → e.fallback = none) ∧
        (rc.1.exact = false → e.fallback = some e.value)) :=
  ⟨(C2_theorem okTih).1 exConf exVH [] rfl,
    fun e he => (C2_theorem okTih).2.1 ["h.com"] (sortByExact exHC.subpaths)
      (exVH.handlers.entries.drop 1) rfl e he⟩

/-- Witness for C3 at a concrete input: the configured exact rule `/a`
(listed first) is committed after the prefix rule `/b`, and the processed
state appends root entry then sub-path entries in that order. -/
theorem C3_witness :
    sortByExact exHC.subpaths =
      exHC.subpaths.filter (fun x => !x.1.exact) ++
        exHC.subpaths.filter (fun x => x.1.exact) ∧
    ∃ handler subs,
      okTih exHC.config = Except.ok handler ∧
      subpathEntries okTih
          (hostNames ["h.com"] (defaultResolve st0.dflt exHC.default ["h.com"]).1)
          (exHC.subpaths.filter (fun x => !x.1.exact) ++
            exHC.subpaths.filter (fun x => x.1.exact)) = Except.ok subs ∧
      exSt.entries = st0.entries ++
        ((hostNames ["h.com"] (defaultResolve st0.dflt exHC.default ["h.com"]).1).map
          (fun n => rootEntry n handler) ++ subs) :=
  C3_theorem okTih st0 ["h.com"] exHC exSt rfl

/-! ## The order used by the name set -/

/-- Characters with equal code points are equal. -/
theorem char_eq_of_toNat_eq {c d : Char} (h : c.toNat = d.toNat) : c = d :=
  Char.eq_of_val_eq (UInt32.ext h)

/-- The lexicographic order is irreflexive. -/
theorem listLt_irrefl (l : List Char) : listLt l l = false := by
  induction l with
  | nil => rfl
  | cons c cs ih => simp [listLt, ih]

/-- The lexicographic order is transitive. -/
theorem listLt_trans {a : List Char} : ∀ {b c : List Char},
    listLt a b = true → listLt b c = true → listLt a c = true := by
  induction a with
  | nil =>
      intro b c hab hbc
      cases b with
      | nil => simp [listLt] at hab
      | cons y ys =>
          cases c with
          | nil => simp [listLt] at hbc
          | cons z zs => rfl
  | cons x xs ih =>
      intro b c hab hbc
      cases b with
      | nil => simp [listLt] at hab
      | cons y ys =>
          cases c with
          | nil => simp [listLt] at hbc
          | cons z zs =>
              simp only [listLt] at hab hbc ⊢
              by_cases h1 : x.toNat < y.toNat
              · by_cases h2 : y.toNat < z.toNat
                · simp [show x.toNat < z.toNat from by omega]
                · rw [if_neg h2] at hbc
                  by_cases h3 : z.toNat < y.toNat
                  · rw [if_pos h3] at hbc
                    cases hbc
                  · rw [if_neg h3] at hbc
                    simp [show x.toNat < z.toNat from by omega]
              · rw [if_neg h1] at hab
                by_cases h1' : y.toNat < x.toNat
                · rw [if_pos h1'] at hab
                  cases hab
                · rw [if_neg h1'] at hab
                  by_cases h2 : y.toNat < z.toNat
                  · simp [show x.toNat < z.toNat from by omega]
                  · rw [if_neg h2] at hbc
                    by_cases h3 : z.toNat < y.toNat
                    · rw [if_pos h3] at hbc
                      cases hbc
                    · rw [if_neg h3] at hbc
                      rw [if_neg (show ¬ x.toNat < z.toNat from by omega),
                        if_neg (show ¬ z.toNat < x.toNat from by omega)]
                      exact ih hab hbc

/-- Lists neither of which is lexicographically below the other are equal. -/
theorem listLt_total {a : List Char} : ∀ {b : List Char},
    listLt a b = false → listLt b a = false → a = b := by
  induction a with
  | nil =>
      intro b hab _
      cases b with
      | nil => rfl
      | cons y ys => simp [listLt] at hab
  | cons x xs ih =>
      intro b hab hba
      cases b with
      | nil => simp [listLt] at hba
      | cons y ys =>
          simp only [listLt] at hab hba
          by_cases h1 : x.toNat < y.toNat
          · rw [if_pos h1] at hab
            cases hab
          · rw [if_neg h1] at hab
            by_cases h2 : y.toNat < x.toNat
            · rw [if_pos h2] at hba
              cases hba
            · rw [if_neg h2] at hab
              rw [if_neg h2, if_neg h1] at hba
              have hxy : x = y := char_eq_of_toNat_eq (by omega)
              rw [hxy, ih hab hba]

/-- `strLt` is irreflexive. -/
theorem strLt_irrefl (s : String) : strLt s s = false := listLt_irrefl _

/-- `strLt` is transitive. -/
theorem strLt_trans {a b c : String} (hab : strLt a b = true)
    (hbc : strLt b c = true) : strLt a c = true := listLt_trans hab hbc

/-- Strings with equal character lists are equal. -/
theorem str_eq_of_toList_eq {a b : String} (h : a.toList = b.toList) : a = b := by
  cases a
  cases b
  cases h
  rfl

/-- Strings neither of which is below the other are equal. -/
theorem strLt_total {a b : String} (hab : strLt a b = false)
    (hba : strLt b a = false) : a = b :=
  str_eq_of_toList_eq (listLt_total hab hba)

/-- Membership in an insertion. -/
theorem mem_insertSorted {x a : String} : ∀ {l : List String},
    a ∈ insertSorted x l ↔ a = x ∨ a ∈ l := by
  intro l
  induction l with
  | nil => simp [insertSorted]
  | cons y ys ih =>
      simp only [insertSorted]
      by_cases h1 : x = y
      · subst h1
        rw [if_pos rfl]
        simp only [List.mem_cons]
        tauto
      · rw [if_neg h1]
        by_cases h2 : strLt x y
        · rw [if_pos h2]
          simp [or_comm, or_assoc, or_left_comm]
        · rw [if_neg h2]
          simp only [List.mem_cons, ih]
          tauto

/-- Insertion preserves strict sortedness. -/
theorem insertSorted_sorted {x : String} : ∀ {l : List String},
    SortedStr l → SortedStr (insertSorted x l) := by
  intro l
  induction l with
  | nil =>
      intro _
      simp [insertSorted, SortedStr]
  | cons y ys ih =>
      intro hs
      have hy := (List.pairwise_cons.mp hs).1
      have hys := (List.pairwise_cons.mp hs).2
      simp only [insertSorted]
      by_cases h1 : x = y
      · rw [if_pos h1]
        exact hs
      · rw [if_neg h1]
        by_cases h2 : strLt x y
        · rw [if_pos h2]
          refine List.pairwise_cons.mpr ⟨?_, hs⟩
          intro b hb
          rcases List.mem_cons.mp hb with hb1 | hb2
          · subst hb1
            exact h2
          · exact strLt_trans h2 (hy b hb2)
        · rw [if_neg h2]
          have hyx : strLt y x = true := by
            cases h3 : strLt y x with
            | true => rfl
            | false =>
                exact absurd (strLt_total (by simpa using h2) h3) h1
          refine List.pairwise_cons.mpr ⟨?_, ih hys⟩
          intro b hb
          rcases mem_insertSorted.mp hb with hb1 | hb2
          · subst hb1
            exact hyx
          · exact hy b hb2

/-- Folding insertions preserves strict sortedness. -/
theorem foldl_insertSorted_sorted : ∀ (l : List String) (base : List String),
    SortedStr base →
    SortedStr (l.foldl (fun s h => insertSorted h s) base) := by
  intro l
  induction l with
  | nil => exact fun base h => h
  | cons x xs ih =>
      intro base h
      exact ih (insertSorted x base) (insertSorted_sorted h)

/-- A strictly sorted list has no duplicates. -/
theorem SortedStr.nodup {l : List String} (h : SortedStr l) : l.Nodup := by
  refine h.imp ?_
  intro a b hab heq
  subst heq
  rw [strLt_irrefl] at hab
  cases hab

/-- The base of a name set is empty or the default sentinel alone. -/
theorem defaultResolve_base (dflt : Option (List String)) (flag : Bool)
    (hosts : List String) :
    (defaultResolve dflt flag hosts).1 = [] ∨
      (defaultResolve dflt flag hosts).1 = [""] := by
  unfold defaultResolve
  cases flag with
  | false => exact Or.inl rfl
  | true =>
      cases dflt with
      | none => exact Or.inr rfl
      | some p => exact Or.inl rfl

/-- The name set of one virtual host has no duplicates. -/
theorem hostNames_nodup (hosts : List String) (base : List String)
    (hbase : base = [] ∨ base = [""]) :
    (hostNames hosts base).Nodup := by
  have hs : SortedStr base := by
    rcases hbase with h | h <;> subst h <;> simp [SortedStr]
  exact (foldl_insertSorted_sorted _ base hs).nodup

/-- Filtering per-name entries for a name not in the list finds nothing. -/
theorem filter_map_host_not_mem (f : String → RouterEntry V)
    (hf : ∀ k, (f k).host = k) (n : String) :
    ∀ (names : List String), n ∉ names →
      (names.map f).filter (fun e => e.host = n) = [] := by
  intro names
  induction names with
  | nil => intro _; rfl
  | cons k ks ih =>
      intro hn
      have hkn : ¬ (f k).host = n := by
        rw [hf k]
        intro h
        exact hn (h ▸ List.mem_cons_self k ks)
      have hn' : n ∉ ks := fun h => hn (List.mem_cons_of_mem k h)
      simp only [List.map_cons, List.filter_cons]
      rw [if_neg (by simpa using hkn)]
      exact ih hn'

/-- Filtering a block of per-name entries for one of the (duplicate-free)
names keeps exactly that name's entry. -/
theorem filter_map_host (f : String → RouterEntry V)
    (hf : ∀ k, (f k).host = k) :
    ∀ (names : List String), names.Nodup → ∀ n ∈ names,
      (names.map f).filter (fun e => e.host = n) = [f n] := by
  intro names
  induction names with
  | nil => intro _ n hn; simp at hn
  | cons k ks ih =>
      intro hnd n hn
      have hnd' := List.nodup_cons.mp hnd
      rcases List.mem_cons.mp hn with h1 | h2
      · subst h1
        simp only [List.map_cons, List.filter_cons]
        rw [if_pos (by simp [hf])]
        rw [filter_map_host_not_mem f hf n ks hnd'.1]
      · have hkn : ¬ (f k).host = n := by
          rw [hf k]
          intro h
          subst h
          exact hnd'.1 h2
        simp only [List.map_cons, List.filter_cons]
        rw [if_neg (by simpa using hkn)]
        exact ih hnd'.2 n h2

/-- The host-independent shapes of one name's sub-path entries: every
registered name sees the same list of `(rule, payload, fallback)` shapes. -/
theorem subpathEntries_shape (tih : C → Except Err H) (names : List String)
    (hnd : names.Nodup) :
    ∀ (l : List (PathRule × SubPathConf C))
      (es : List (RouterEntry (Option Path × H))),
      subpathEntries tih names l = Except.ok es →
      ∃ t, ∀ n ∈ names,
        ((es.filter (fun e => e.host = n)).map entryShape) = t := by
  intro l
  induction l with
  | nil =>
      intro es he
      simp only [subpathEntries] at he
      cases he
      exact ⟨[], fun n _ => rfl⟩
  | cons rc l ih =>
      intro es he
      rw [subpathEntries_cons] at he
      cases hc : tih rc.2.config with
      | error e0 => rw [hc] at he; cases he
      | ok handler =>
          rw [hc] at he
          cases hm : subpathEntries tih names l with
          | error e0 => rw [hm] at he; cases he
          | ok more =>
              rw [hm] at he
              cases he
              obtain ⟨t, ht⟩ := ih more hm
              refine ⟨(rc.1.path, (ruleStrip rc.1 rc.2, handler),
                if rc.1.exact then none
                else some (ruleStrip rc.1 rc.2, handler)) :: t, ?_⟩
              intro n hn
              rw [List.filter_append, List.map_append]
              rw [filter_map_host
                (fun k => subpathEntry k rc.1 (ruleStrip rc.1 rc.2) handler)
                (fun k => rfl) names hnd n hn]
              rw [ht n hn]
              rfl

/-- Claim C7: a successful `processHost` run registers, for every name in
the host's alias set (default sentinel included), an identical list of
entry shapes — the root entry's shape followed by one shape per sub-path
rule — so every alias maps to equal `(rule, strip-marker, handler)`
payloads. -/
theorem C7_theorem (tih : C → Except Err H) (st : CompileState H)
    (hosts : List String) (hc : HostConf C) (st' : CompileState H)
    (h : processHost tih st hosts hc = Except.ok st') :
    ∃ handler subs,
      tih hc.config = Except.ok handler ∧
      subpathEntries tih
          (hostNames hosts (defaultResolve st.dflt hc.default hosts).1)
          (sortByExact hc.subpaths) = Except.ok subs ∧
      st'.entries = st.entries ++
        ((hostNames hosts (defaultResolve st.dflt hc.default hosts).1).map
          (fun n => rootEntry n handler) ++ subs) ∧
      ∀ n ∈ hostNames hosts (defaultResolve st.dflt hc.default hosts).1,
        ∀ m ∈ hostNames hosts (defaultResolve st.dflt hc.default hosts).1,
          ((((hostNames hosts (defaultResolve st.dflt hc.default hosts).1).map
              (fun k => rootEntry k handler) ++ subs).filter
            (fun e => e.host = n)).map entryShape) =
          ((((hostNames hosts (defaultResolve st.dflt hc.default hosts).1).map
              (fun k => rootEntry k handler) ++ subs).filter
            (fun e => e.host = m)).map entryShape) := by
  obtain ⟨handler, subs, hh, hsubs, hst⟩ := processHost_elim tih st hosts hc st' h
  have hnd := hostNames_nodup hosts _ (defaultResolve_base st.dflt hc.default hosts)
  obtain ⟨t, ht⟩ := subpathEntries_shape tih _ hnd _ subs hsubs
  refine ⟨handler, subs, hh, hsubs, by rw [hst], ?_⟩
  have key : ∀ k ∈ hostNames hosts (defaultResolve st.dflt hc.default hosts).1,
      ((((hostNames hosts (defaultResolve st.dflt hc.default hosts).1).map
          (fun k => rootEntry k handler) ++ subs).filter
        (fun e => e.host = k)).map entryShape) =
      ("", (none, handler), some (none, handler)) :: t := by
    intro k hk
    rw [List.filter_append, List.map_append]
    rw [filter_map_host (fun k => rootEntry k handler) (fun k => rfl) _ hnd k hk]
    rw [ht k hk]
    rfl
  intro n hn m hm
  rw [key n hn, key m hm]

/-- Witness for C7 at a concrete input: both aliases of a two-alias host
receive identical entry shapes. -/
theorem C7_witness :
    ∃ handler subs,
      okTih exHC2.config = Except.ok handler ∧
      subpathEntries okTih
          (hostNames ["b.com", "a.com"]
            (defaultResolve st0.dflt exHC2.default ["b.com", "a.com"]).1)
          (sortByExact exHC2.subpaths) = Except.ok subs ∧
      exSt2.entries = st0.entries ++
        ((hostNames ["b.com", "a.com"]
            (defaultResolve st0.dflt exHC2.default ["b.com", "a.com"]).1).map
          (fun n => rootEntry n handler) ++ subs) ∧
      ∀ n ∈ hostNames ["b.com", "a.com"]
          (defaultResolve st0.dflt exHC2.default ["b.com", "a.com"]).1,
        ∀ m ∈ hostNames ["b.com", "a.com"]
            (defaultResolve st0.dflt exHC2.default ["b.com", "a.com"]).1,
          ((((hostNames ["b.com", "a.com"]
              (defaultResolve st0.dflt exHC2.default ["b.com", "a.com"]).1).map
                (fun k => rootEntry k handler) ++ subs).filter
            (fun e => e.host = n)).map entryShape) =
          ((((hostNames ["b.com", "a.com"]
              (defaultResolve st0.dflt exHC2.default ["b.com", "a.com"]).1).map
                (fun k => rootEntry k handler) ++ subs).filter
            (fun e => e.host = m)).map entryShape) :=
  C7_theorem okTih st0 ["b.com", "a.com"] exHC2 exSt2 rfl

/-- A successful sub-path loop converted every rule's configuration. -/
theorem subpathEntries_ok_conversions (tih : C → Except Err H)
    (names : List String) :
    ∀ (l : List (PathRule × SubPathConf C))
      (es : List (RouterEntry (Option Path × H))),
      subpathEntries tih names l = Except.ok es →
      ∀ rc ∈ l, exceptOk (tih rc.2.config) = true := by
  intro l
  induction l with
  | nil => intro es _ rc hrc; simp at hrc
  | cons rc0 l ih =>
      intro es he rc hrc
      rw [subpathEntries_cons] at he
      cases hc : tih rc0.2.config with
      | error e0 => rw [hc] at he; cases he
      | ok handler =>
          rw [hc] at he
          cases hm : subpathEntries tih names l with
          | error e0 => rw [hm] at he; cases he
          | ok more =>
              rcases List.mem_cons.mp hrc with h1 | h2
              · subst h1
                rw [hc]
                rfl
              · exact ih more hm rc h2

/-- A failing compile fold fails with one of the configured conversions'
own errors. -/
theorem compileFold_error (tih : C → Except Err H) :
    ∀ (l : List (List String × HostConf C)) (st : CompileState H) (e : Err),
      compileFold tih l st = Except.error e →
      ∃ hc ∈ l, tih hc.2.config = Except.error e ∨
        ∃ rc ∈ hc.2.subpaths, tih rc.2.config = Except.error e := by
  intro l
  induction l with
  | nil =>
      intro st e h
      simp only [compileFold, List.foldlM_nil] at h
      cases h
  | cons hc l ih =>
      intro st e h
      rw [compileFold_cons] at h
      cases hp : processHost tih st hc.1 hc.2 with
      | error e0 =>
          rw [hp] at h
          cases h
          exact ⟨hc, List.mem_cons_self hc l,
            processHost_error tih st hc.1 hc.2 _ hp⟩
      | ok st1 =>
          rw [hp] at h
          obtain ⟨hc', hhc', hrest⟩ := ih st1 e h
          exact ⟨hc', List.mem_cons_of_mem hc hhc', hrest⟩

/-- A successful compile fold converted every configured handler. -/
theorem compileFold_ok_conversions (tih : C → Except Err H) :
    ∀ (l : List (List String × HostConf C)) (st st' : CompileState H),
      compileFold tih l st = Except.ok st' →
      ∀ hc ∈ l, exceptOk (tih hc.2.config) = true ∧
        ∀ rc ∈ hc.2.subpaths, exceptOk (tih rc.2.config) = true := by
  intro l
  induction l with
  | nil => intro st st' _ hc hhc; simp at hhc
  | cons hc0 l ih =>
      intro st st' h hc hhc
      rw [compileFold_cons] at h
      cases hp : processHost tih st hc0.1 hc0.2 with
      | error e0 => rw [hp] at h; cases h
      | ok st1 =>
          rw [hp] at h
          rcases List.mem_cons.mp hhc with h1 | h2
          · subst h1
            obtain ⟨handler, subs, hh, hsubs, _⟩ :=
              processHost_elim tih st hc.1 hc.2 st1 hp
            refine ⟨by rw [hh]; rfl, ?_⟩
            intro rc hrc
            exact subpathEntries_ok_conversions tih _ _ subs hsubs rc
              ((sortByExact_perm hc.2.subpaths).mem_iff.mpr hrc)
          · exact ih st1 st' h hc h2

/-- Claim C8: when any handler configuration in the tree fails to convert,
`try_from` returns a conversion error (no handler value is produced), and
the error it returns is one of the conversions' own errors, unmodified. -/
theorem C8_theorem (tih : C → Except Err H) (conf : VirtualHostsConf C)
    (h : conversionsOk tih conf = false) :
    ∃ e, try_from tih conf = Except.error e ∧
      ∃ hc ∈ conf.vhosts, tih hc.2.config = Except.error e ∨
        ∃ rc ∈ hc.2.subpaths, tih rc.2.config = Except.error e := by
  cases hf : compileFold tih conf.vhosts (⟨[], none, []⟩ : CompileState H) with
  | ok st =>
      exfalso
      have hall := compileFold_ok_conversions tih conf.vhosts _ st hf
      have : conversionsOk tih conf = true := by
        simp only [conversionsOk, List.all_eq_true, Bool.and_eq_true]
        intro hc hhc
        obtain ⟨h1, h2⟩ := hall hc hhc
        exact ⟨h1, h2⟩
      rw [this] at h
      cases h
  | error e =>
      refine ⟨e, ?_, ?_⟩
      · unfold try_from
        rw [hf]
        rfl
      · exact compileFold_error tih conf.vhosts _ e hf

/-- Witness for C8 at a concrete input: compiling `badConf` surfaces the
sub-path conversion's own error. -/
theorem C8_witness :
    ∃ e, try_from failTih badConf = Except.error e ∧
      ∃ hc ∈ badConf.vhosts, failTih hc.2.config = Except.error e ∨
        ∃ rc ∈ hc.2.subpaths, failTih rc.2.config = Except.error e :=
  C8_theorem failTih badConf (by decide)

/-- Empty-host diagnostics survive the removal of duplicate-default
diagnostics. -/
theorem filter_dup_emptyHost (xs : List String) :
    ((xs.map (fun _ => Warning.emptyHost)).filter
      (fun w => w ≠ Warning.duplicateDefault)) =
      xs.map (fun _ => Warning.emptyHost) := by
  apply List.filter_eq_self.mpr
  intro a ha
  obtain ⟨x, _, hx⟩ := List.mem_map.mp ha
  subst hx
  decide

/-- Running the outer loop on the same configuration with the later
`default` flags cleared produces the same entries and recorded default and
exactly the warnings that are not duplicate-default diagnostics. -/
theorem compileFold_clearLater (tih : C → Except Err H) :
    ∀ (l : List (List String × HostConf C)) (seen : Bool)
      (st1 st2 : CompileState H),
      st2.dflt = st1.dflt → st2.entries = st1.entries →
      st2.warnings = st1.warnings.filter (fun w => w ≠ Warning.duplicateDefault) →
      seen = st1.dflt.isSome →
      (∀ hc ∈ l, exceptOk (tih hc.2.config) = true ∧
        ∀ rc ∈ hc.2.subpaths, exceptOk (tih rc.2.config) = true) →
      ∃ st1' st2', compileFold tih l st1 = Except.ok st1' ∧
        compileFold tih (clearLater seen l) st2 = Except.ok st2' ∧
        st2'.dflt = st1'.dflt ∧ st2'.entries = st1'.entries ∧
        st2'.warnings =
          st1'.warnings.filter (fun w => w ≠ Warning.duplicateDefault) := by
  intro l
  induction l with
  | nil =>
      intro seen st1 st2 hd he hw _ _
      exact ⟨st1, st2, rfl, rfl, hd, he, hw⟩
  | cons hc l ih =>
      intro seen st1 st2 hd he hw hseen hok
      obtain ⟨hok1, hok2⟩ := hok hc (List.mem_cons_self hc l)
      have hokl : ∀ x ∈ l, exceptOk (tih x.2.config) = true ∧
          ∀ rc ∈ x.2.subpaths, exceptOk (tih rc.2.config) = true :=
        fun x hx => hok x (List.mem_cons_of_mem hc hx)
      obtain ⟨st1a, hst1a⟩ := processHost_ok tih st1 hc.1 hc.2 hok1 hok2
      obtain ⟨handler, subs, hh, hsubs, hst1aeq⟩ :=
        processHost_elim tih st1 hc.1 hc.2 st1a hst1a
      by_cases hflag : hc.2.default
      · cases hdf : st1.dflt with
        | none =>
            -- first default host: kept unchanged on both sides
            have hseen' : seen = false := by rw [hseen, hdf]; rfl
            have hcl : clearLater seen (hc :: l) = hc :: clearLater true l := by
              rw [hseen']
              simp [clearLater, hflag]
            obtain ⟨st2a, hst2a⟩ := processHost_ok tih st2 hc.1 hc.2 hok1 hok2
            obtain ⟨handler2, subs2, hh2, hsubs2, hst2aeq⟩ :=
              processHost_elim tih st2 hc.1 hc.2 st2a hst2a
            have hhandler : handler2 = handler := by
              rw [hh] at hh2
              exact (Except.ok.inj hh2).symm
            rw [hd] at hsubs2 hst2aeq
            have hsubs' : subs2 = subs := by
              rw [hsubs] at hsubs2
              exact (Except.ok.inj hsubs2).symm
            have hdr : defaultResolve st1.dflt hc.2.default hc.1 =
                ([""], some hc.1, []) := by
              rw [hdf]
              simp [defaultResolve, hflag]
            rw [hdr] at hst1aeq hst2aeq
            obtain ⟨st1', st2', hf1, hf2, hd', he', hw'⟩ :=
              ih true st1a st2a
                (by rw [hst1aeq, hst2aeq])
                (by rw [hst1aeq, hst2aeq, he, hhandler, hsubs'])
                (by
                  rw [hst1aeq, hst2aeq, hhandler, hsubs']
                  simp [List.filter_append, hw, filter_dup_emptyHost])
                (by rw [hst1aeq]; rfl)
                hokl
            refine ⟨st1', st2', ?_, ?_, hd', he', hw'⟩
            · rw [compileFold_cons, hst1a]
              exact hf1
            · rw [hcl, compileFold_cons, hst2a]
              exact hf2
        | some p =>
            -- later default host: flag cleared on the second side
            have hseen' : seen = true := by rw [hseen, hdf]; rfl
            have hcl : clearLater seen (hc :: l) =
                (hc.1, { hc.2 with default := false }) :: clearLater true l := by
              rw [hseen']
              simp [clearLater, hflag]
            have hok1' : exceptOk (tih ({ hc.2 with default := false} :
                HostConf C).config) = true := hok1
            have hok2' : ∀ rc ∈ ({ hc.2 with default := false} :
                HostConf C).subpaths, exceptOk (tih rc.2.config) = true := hok2
            obtain ⟨st2a, hst2a⟩ :=
              processHost_ok tih st2 hc.1 { hc.2 with default := false } hok1' hok2'
            obtain ⟨handler2, subs2, hh2, hsubs2, hst2aeq⟩ :=
              processHost_elim tih st2 hc.1 { hc.2 with default := false } st2a hst2a
            have hhandler : handler2 = handler := by
              rw [hh] at hh2
              exact (Except.ok.inj hh2).symm
            have hdr1 : defaultResolve st1.dflt hc.2.default hc.1 =
                ([], some p, [Warning.duplicateDefault]) := by
              rw [hdf]
              simp [defaultResolve, hflag]
            have hdr2 : defaultResolve st2.dflt
                ({ hc.2 with default := false} : HostConf C).default hc.1 =
                ([], some p, []) := by
              rw [hd, hdf]
              simp [defaultResolve]
            rw [hdr2] at hsubs2 hst2aeq
            rw [hdr1] at hsubs hst1aeq
            have hsubs' : subs2 = subs := by
              rw [hsubs] at hsubs2
              exact (Except.ok.inj hsubs2).symm
            obtain ⟨st1', st2', hf1, hf2, hd', he', hw'⟩ :=
              ih true st1a st2a
                (by rw [hst1aeq, hst2aeq])
                (by rw [hst1aeq, hst2aeq, he, hhandler, hsubs'])
                (by
                  rw [hst1aeq, hst2aeq, hhandler, hsubs']
                  simp [List.filter_append, hw, filter_dup_emptyHost])
                (by rw [hst1aeq]; rfl)
                hokl
            refine ⟨st1', st2', ?_, ?_, hd', he', hw'⟩
            · rw [compileFold_cons, hst1a]
              exact hf1
            · rw [hcl, compileFold_cons, hst2a]
              exact hf2
      · -- non-default host: identical on both sides
        have hcl : clearLater seen (hc :: l) = hc :: clearLater seen l := by
          simp [clearLater, hflag]
        obtain ⟨st2a, hst2a⟩ := processHost_ok tih st2 hc.1 hc.2 hok1 hok2
        obtain ⟨handler2, subs2, hh2, hsubs2, hst2aeq⟩ :=
          processHost_elim tih st2 hc.1 hc.2 st2a hst2a
        have hhandler : handler2 = handler := by
          rw [hh] at hh2
          exact (Except.ok.inj hh2).symm
        rw [hd] at hsubs2 hst2aeq
        have hsubs' : subs2 = subs := by
          rw [hsubs] at hsubs2
          exact (Except.ok.inj hsubs2).symm
        have hdr : defaultResolve st1.dflt hc.2.default hc.1 =
            ([], st1.dflt, []) := by
          simp [defaultResolve, hflag]
        rw [hdr] at hst1aeq hst2aeq
        obtain ⟨st1', st2', hf1, hf2, hd', he', hw'⟩ :=
          ih seen st1a st2a
            (by rw [hst1aeq, hst2aeq])
            (by rw [hst1aeq, hst2aeq, he, hhandler, hsubs'])
            (by
              rw [hst1aeq, hst2aeq, hhandler, hsubs']
              simp [List.filter_append, hw, filter_dup_emptyHost])
            (by rw [hst1aeq]; exact hseen)
            hokl
        refine ⟨st1', st2', ?_, ?_, hd', he', hw'⟩
        · rw [compileFold_cons, hst1a]
          exact hf1
        · rw [hcl, compileFold_cons, hst2a]
          exact hf2

/-- Warnings already present survive the rest of the compile fold. -/
theorem compileFold_warn_mono (tih : C → Except Err H) :
    ∀ (l : List (List String × HostConf C)) (st st' : CompileState H),
      compileFold tih l st = Except.ok st' →
      ∀ w ∈ st.warnings, w ∈ st'.warnings := by
  intro l
  induction l with
  | nil =>
      intro st st' h w hw
      simp only [compileFold, List.foldlM_nil] at h
      cases h
      exact hw
  | cons hc l ih =>
      intro st st' h w hw
      rw [compileFold_cons] at h
      cases hp : processHost tih st hc.1 hc.2 with
      | error e0 => rw [hp] at h; cases h
      | ok st1 =>
          rw [hp] at h
          obtain ⟨handler, subs, _, _, hst1eq⟩ :=
            processHost_elim tih st hc.1 hc.2 st1 hp
          refine ih st1 st' h w ?_
          rw [hst1eq]
          exact List.mem_append.mpr (Or.inl hw)

/-- `processHost` never discards an already-recorded default. -/
theorem processHost_dflt_mono (tih : C → Except Err H) (st : CompileState H)
    (hosts : List String) (hc : HostConf C) (st' : CompileState H)
    (h : processHost tih st hosts hc = Except.ok st')
    (hd : st.dflt.isSome = true) : st'.dflt.isSome = true := by
  obtain ⟨handler, subs, _, _, hst⟩ := processHost_elim tih st hosts hc st' h
  rw [hst]
  obtain ⟨p, hp⟩ := Option.isSome_iff_exists.mp hd
  cases hflag : hc.default with
  | true => simp [defaultResolve, hp]
  | false => simp [defaultResolve, hp]

/-- Once a default host is recorded, any further default-flagged host makes
the fold emit a duplicate-default diagnostic. -/
theorem compileFold_dup (tih : C → Except Err H) :
    ∀ (l : List (List String × HostConf C)) (st st' : CompileState H),
      compileFold tih l st = Except.ok st' → st.dflt.isSome = true →
      (∃ hc ∈ l, hc.2.default = true) →
      Warning.duplicateDefault ∈ st'.warnings := by
  intro l
  induction l with
  | nil =>
      intro st st' _ _ hex
      obtain ⟨hc, hhc, _⟩ := hex
      simp at hhc
  | cons hc l ih =>
      intro st st' h hd hex
      rw [compileFold_cons] at h
      cases hp : processHost tih st hc.1 hc.2 with
      | error e0 => rw [hp] at h; cases h
      | ok st1 =>
          rw [hp] at h
          by_cases hflag : hc.2.default
          · obtain ⟨handler, subs, _, _, hst1eq⟩ :=
              processHost_elim tih st hc.1 hc.2 st1 hp
            obtain ⟨p, hpd⟩ := Option.isSome_iff_exists.mp hd
            have hmem : Warning.duplicateDefault ∈ st1.warnings := by
              rw [hst1eq]
              simp [defaultResolve, hflag, hpd]
            exact compileFold_warn_mono tih l st1 st' h _ hmem
          · obtain ⟨hc', hhc', hflag'⟩ := hex
            have hhc'' : hc' ∈ l := by
              rcases List.mem_cons.mp hhc' with h1 | h2
              · exfalso
                rw [h1] at hflag'
                exact hflag hflag'
              · exact h2
            exact ih st1 st' h
              (processHost_dflt_mono tih st hc.1 hc.2 st1 hp hd)
              ⟨hc', hhc'', hflag'⟩

/-- With two or more default-flagged hosts the fold emits a
duplicate-default diagnostic. -/
theorem compileFold_dup_of_two (tih : C → Except Err H) :
    ∀ (l : List (List String × HostConf C)) (st st' : CompileState H),
      compileFold tih l st = Except.ok st' → st.dflt = none →
      2 ≤ (l.filter (fun hc => hc.2.default)).length →
      Warning.duplicateDefault ∈ st'.warnings := by
  intro l
  induction l with
  | nil =>
      intro st st' _ _ hcnt
      simp at hcnt
  | cons hc l ih =>
      intro st st' h hd hcnt
      rw [compileFold_cons] at h
      cases hp : processHost tih st hc.1 hc.2 with
      | error e0 => rw [hp] at h; cases h
      | ok st1 =>
          rw [hp] at h
          obtain ⟨handler, subs, _, _, hst1eq⟩ :=
            processHost_elim tih st hc.1 hc.2 st1 hp
          by_cases hflag : hc.2.default
          · have hd1 : st1.dflt.isSome = true := by
              rw [hst1eq]
              simp [defaultResolve, hflag, hd]
            have hrest : 1 ≤ (l.filter (fun hc => hc.2.default)).length := by
              rw [List.filter_cons] at hcnt
              simp only [hflag] at hcnt
              simp at hcnt
              omega
            obtain ⟨hc', hhc'⟩ :=
              List.exists_mem_of_length_pos (by omega :
                0 < (l.filter (fun hc => hc.2.default)).length)
            have hm := List.mem_filter.mp hhc'
            exact compileFold_dup tih l st1 st' h hd1
              ⟨hc', hm.1, by simpa using hm.2⟩
          · have hd1 : st1.dflt = none := by
              rw [hst1eq]
              simp [defaultResolve, hflag, hd]
            have hcnt' : 2 ≤ (l.filter (fun hc => hc.2.default)).length := by
              rw [List.filter_cons] at hcnt
              simp only [hflag] at hcnt
              simpa using hcnt
            exact ih st1 st' h hd1 hcnt'

/-- Claim C4: a configuration with two or more default-flagged hosts whose
conversions all succeed compiles successfully; its result equals the result
of the same configuration with every later default flag cleared (so only
the first-processed default host is registered under the empty-string key),
the only difference being the duplicate-default diagnostics, of which at
least one is emitted — observable, not silent — while the cleared variant
emits none. -/
theorem C4_theorem (tih : C → Except Err H) (conf : VirtualHostsConf C)
    (hcnt : 2 ≤ (conf.vhosts.filter (fun hc => hc.2.default)).length)
    (hok : conversionsOk tih conf = true) :
    ∃ vh ws ws2, try_from tih conf = Except.ok (vh, ws) ∧
      try_from tih (clearLaterDefaults conf) = Except.ok (vh, ws2) ∧
      ws2 = ws.filter (fun w => w ≠ Warning.duplicateDefault) ∧
      Warning.duplicateDefault ∈ ws ∧
      Warning.duplicateDefault ∉ ws2 := by
  have hok' : ∀ hc ∈ conf.vhosts, exceptOk (tih hc.2.config) = true ∧
      ∀ rc ∈ hc.2.subpaths, exceptOk (tih rc.2.config) = true := by
    simp only [conversionsOk, List.all_eq_true, Bool.and_eq_true] at hok
    intro hc hhc
    obtain ⟨h1, h2⟩ := hok hc hhc
    exact ⟨h1, h2⟩
  obtain ⟨st1', st2', hf1, hf2, hd', he', hw'⟩ :=
    compileFold_clearLater tih conf.vhosts false
      (⟨[], none, []⟩ : CompileState H) (⟨[], none, []⟩ : CompileState H)
      rfl rfl rfl rfl hok'
  refine ⟨⟨RouterBuilder.build st1'.entries⟩, st1'.warnings, st2'.warnings,
    ?_, ?_, hw', ?_, ?_⟩
  · unfold try_from
    rw [hf1]
    rfl
  · unfold try_from clearLaterDefaults
    rw [hf2]
    show Except.ok
        (({ handlers := { entries := st2'.entries } } : VirtualHostsHandler H),
          st2'.warnings) = _
    rw [he']
    rfl
  · exact compileFold_dup_of_two tih conf.vhosts _ st1' hf1 rfl hcnt
  · rw [hw']
    intro hmem
    have := (List.mem_filter.mp hmem).2
    simp at this

/-- Witness for C4 at a concrete input: a two-default configuration
compiles, only the first default host keeps the empty-string key, and
exactly the duplicate-default diagnostic distinguishes the two runs. -/
theorem C4_witness :
    ∃ vh ws ws2, try_from okTih dupConf = Except.ok (vh, ws) ∧
      try_from okTih (clearLaterDefaults dupConf) = Except.ok (vh, ws2) ∧
      ws2 = ws.filter (fun w => w ≠ Warning.duplicateDefault) ∧
      Warning.duplicateDefault ∈ ws ∧
      Warning.duplicateDefault ∉ ws2 :=
  C4_theorem okTih dupConf (by decide) (by decide)

/-! ## Lemmas about segment stripping -/

/-- Leading separators do not change the segment list. -/
theorem segsAux_dropSlashes (cs : List Char) :
    segsAux [] (cs.dropWhile (fun c => c = Char.ofNat 47)) = segsAux [] cs := by
  induction cs with
  | nil => rfl
  | cons c cs ih =>
      by_cases hc : c = Char.ofNat 47
      · have h1 : (c :: cs).dropWhile (fun c => c = Char.ofNat 47) =
            cs.dropWhile (fun c => c = Char.ofNat 47) := by
          rw [List.dropWhile_cons, if_pos (by simp [hc])]
        have h2 : segsAux [] (c :: cs) = segsAux [] cs := by
          simp [segsAux, hc]
        rw [h1, ih, h2]
      · have h1 : (c :: cs).dropWhile (fun c => c = Char.ofNat 47) = c :: cs := by
          rw [List.dropWhile_cons, if_neg (by simp [hc])]
        rw [h1]

/-- Consuming a run of non-separator characters accumulates them. -/
theorem segsAux_tok (tok : List Char) : ∀ (acc cs : List Char),
    (∀ c ∈ tok, ¬ c = Char.ofNat 47) →
    segsAux acc (tok ++ cs) = segsAux (tok.reverse ++ acc) cs := by
  induction tok with
  | nil => intro acc cs _; simp
  | cons c tok ih =>
      intro acc cs h
      have hc := h c (List.mem_cons_self c tok)
      have h1 : segsAux acc (c :: (tok ++ cs)) = segsAux (c :: acc) (tok ++ cs) := by
        simp [segsAux, hc]
      rw [List.cons_append, h1,
        ih (c :: acc) cs (fun d hd => h d (List.mem_cons_of_mem c hd))]
      simp

/-- A nonempty accumulated segment is emitted at a separator or the end. -/
theorem segsAux_stop (acc : List Char) (cs : List Char) (hacc : acc ≠ [])
    (hcs : cs = [] ∨ cs.head? = some (Char.ofNat 47)) :
    segsAux acc cs = ⟨acc.reverse⟩ :: segsAux [] cs := by
  rcases hcs with h | h
  · subst h
    simp [segsAux, hacc]
  · cases cs with
    | nil => simp at h
    | cons c cs' =>
        have hc : c = Char.ofNat 47 := by simpa using h
        simp [segsAux, hc, hacc]

/-- The segment list of a path that starts inside a segment: the maximal
first run is one segment, the rest segments follow. -/
theorem segsAux_split (cs : List Char) (hne : cs ≠ [])
    (hh : ∀ c, cs.head? = some c → ¬ c = Char.ofNat 47) :
    segsAux [] cs =
      ⟨cs.takeWhile (fun c => ¬ c = Char.ofNat 47)⟩ ::
        segsAux [] (cs.dropWhile (fun c => ¬ c = Char.ofNat 47)) := by
  have hsplit := List.takeWhile_append_dropWhile
    (fun c => decide ¬ c = Char.ofNat 47) cs
  have htokmem : ∀ c ∈ cs.takeWhile (fun c => ¬ c = Char.ofNat 47),
      ¬ c = Char.ofNat 47 := by
    intro c hc
    have := List.mem_takeWhile_imp hc
    simpa using this
  have htokne : cs.takeWhile (fun c => ¬ c = Char.ofNat 47) ≠ [] := by
    cases hcs : cs with
    | nil => exact absurd hcs hne
    | cons c cs' =>
        have hc : ¬ c = Char.ofNat 47 := hh c (by rw [hcs]; rfl)
        simp [List.takeWhile_cons, hc]
  have hdrop : cs.dropWhile (fun c => ¬ c = Char.ofNat 47) = [] ∨
      (cs.dropWhile (fun c => ¬ c = Char.ofNat 47)).head? =
        some (Char.ofNat 47) := by
    have := List.head?_dropWhile_not (fun c => decide ¬ c = Char.ofNat 47) cs
    cases hd : (cs.dropWhile (fun c => ¬ c = Char.ofNat 47)).head? with
    | none =>
        left
        exact List.head?_eq_none_iff.mp hd
    | some c =>
        right
        rw [hd] at this
        simp only [decide_not] at this
        have : c = Char.ofNat 47 := by simpa using this
        rw [this]
  conv_lhs => rw [← hsplit]
  rw [segsAux_tok _ [] _ htokmem,
    segsAux_stop _ _ (by simpa using htokne) hdrop]
  simp

/-- Stripping a segment off the front of exactly itself plus a separator
boundary succeeds and leaves the raw remainder. -/
theorem stripSegment_self (tok : List Char) : ∀ (rest : List Char),
    (rest = [] ∨ rest.head? = some (Char.ofNat 47)) →
    stripSegment tok (tok ++ rest) = some rest := by
  induction tok with
  | nil =>
      intro rest h
      rcases h with h | h
      · subst h
        rfl
      · cases rest with
        | nil => rfl
        | cons c cs =>
            have hc : c = Char.ofNat 47 := by simpa using h
            simp [stripSegment, hc]
  | cons a tok ih =>
      intro rest h
      simp [stripSegment, ih rest h]

/-- Stripping a segment-list prefix of a path succeeds and leaves a raw
suffix of the path. -/
theorem stripSegments_of_prefix : ∀ (segs : List String) (cs : List Char),
    (segs ≠ [] → cs.head? = some (Char.ofNat 47)) →
    segs <+: segsAux [] cs →
    ∃ rest, stripSegments segs cs = some rest ∧ ∃ pre, cs = pre ++ rest := by
  intro segs
  induction segs with
  | nil =>
      intro cs _ _
      exact ⟨cs, rfl, [], rfl⟩
  | cons seg more ih =>
      intro cs hhead hpre
      have hcs : cs.head? = some (Char.ofNat 47) := hhead (by simp)
      obtain ⟨c, cs0, hcons⟩ : ∃ c cs0, cs = c :: cs0 := by
        cases cs with
        | nil => simp at hcs
        | cons c cs0 => exact ⟨c, cs0, rfl⟩
      have hc : c = Char.ofNat 47 := by
        rw [hcons] at hcs
        simpa using hcs
      have hdropSlashes : dropSlashes cs =
          some (cs.dropWhile (fun c => c = Char.ofNat 47)) := by
        rw [hcons]
        simp [dropSlashes, hc]
      set cs1 := cs.dropWhile (fun c => c = Char.ofNat 47) with hcs1
      have hsegs1 : segsAux [] cs1 = segsAux [] cs := segsAux_dropSlashes cs
      have hpre1 : seg :: more <+: segsAux [] cs1 := by
        rw [hsegs1]
        exact hpre
      have hne1 : cs1 ≠ [] := by
        intro h
        rw [h] at hpre1
        have h0 : segsAux [] ([] : List Char) = [] := rfl
        rw [h0] at hpre1
        have := List.prefix_nil.mp hpre1
        cases this
      have hh1 : ∀ d, cs1.head? = some d → ¬ d = Char.ofNat 47 := by
        intro d hd
        have := List.head?_dropWhile_not (fun c => decide (c = Char.ofNat 47)) cs
        rw [← hcs1] at this
        rw [hd] at this
        simpa using this
      have hsplit := segsAux_split cs1 hne1 hh1
      rw [hsplit] at hpre1
      obtain ⟨hseg, hmore⟩ := List.cons_prefix_cons.mp hpre1
      have htokrest : cs1 = cs1.takeWhile (fun c => ¬ c = Char.ofNat 47) ++
          cs1.dropWhile (fun c => ¬ c = Char.ofNat 47) :=
        (List.takeWhile_append_dropWhile _ _).symm
      set rest1 := cs1.dropWhile (fun c => ¬ c = Char.ofNat 47) with hrest1
      have hrest1h : rest1 = [] ∨ rest1.head? = some (Char.ofNat 47) := by
        have := List.head?_dropWhile_not (fun c => decide ¬ c = Char.ofNat 47) cs1
        cases hd : rest1.head? with
        | none =>
            left
            exact List.head?_eq_none_iff.mp hd
        | some d =>
            right
            rw [← hrest1] at this
            rw [hd] at this
            simp only [decide_not] at this
            have : d = Char.ofNat 47 := by simpa using this
            rw [this]
      have hstripSeg : stripSegment seg.toList cs1 = some rest1 := by
        conv_lhs => rw [htokrest]
        have : seg.toList = cs1.takeWhile (fun c => ¬ c = Char.ofNat 47) := by
          rw [hseg]
          rfl
        rw [this]
        exact stripSegment_self _ _ hrest1h
      have hmoreh : more ≠ [] → rest1.head? = some (Char.ofNat 47) := by
        intro hm
        rcases hrest1h with h | h
        · exfalso
          rw [h] at hmore
          have h0 : segsAux [] ([] : List Char) = [] := rfl
          rw [h0] at hmore
          exact hm (List.prefix_nil.mp hmore)
        · exact h
      obtain ⟨rest, hstrip, pre', hpre'⟩ := ih rest1 hmoreh hmore
      refine ⟨rest, ?_, ?_⟩
      · show (do
            let csa ← dropSlashes cs
            let csb ← stripSegment seg.toList csa
            stripSegments more csb) = some rest
        rw [hdropSlashes]
        show (do
            let csb ← stripSegment seg.toList cs1
            stripSegments more csb) = some rest
        rw [hstripSeg]
        show stripSegments more rest1 = some rest
        exact hstrip
      · have e1 : cs = cs.takeWhile (fun c => c = Char.ofNat 47) ++ cs1 := by
          rw [hcs1]
          exact (List.takeWhile_append_dropWhile _ _).symm
        refine ⟨cs.takeWhile (fun c => c = Char.ofNat 47) ++
          (cs1.takeWhile (fun c => ¬ c = Char.ofNat 47) ++ pre'), ?_⟩
        calc cs = cs.takeWhile (fun c => c = Char.ofNat 47) ++ cs1 := e1
          _ = cs.takeWhile (fun c => c = Char.ofNat 47) ++
              (cs1.takeWhile (fun c => ¬ c = Char.ofNat 47) ++ rest1) := by
            rw [← htokrest]
          _ = cs.takeWhile (fun c => c = Char.ofNat 47) ++
              (cs1.takeWhile (fun c => ¬ c = Char.ofNat 47) ++ (pre' ++ rest)) := by
            rw [← hpre']
          _ = (cs.takeWhile (fun c => c = Char.ofNat 47) ++
              (cs1.takeWhile (fun c => ¬ c = Char.ofNat 47) ++ pre')) ++ rest := by
            simp [List.append_assoc]

/-- Removing a segment-list prefix from a path string succeeds; the result
is `/` for an empty raw remainder and otherwise a nonempty raw suffix of
the path. -/
theorem removePrefixFrom_of_prefix (p : Path) (s : String)
    (hhead : p.segments ≠ [] → s.toList.head? = some (Char.ofNat 47))
    (hpre : p.segments <+: pathSegments s) :
    ∃ rem, p.removePrefixFrom s = some rem ∧ rem ≠ "" ∧
      (rem = "/" ∨ ∃ pre, s.toList = pre ++ rem.toList) := by
  obtain ⟨rest, hstrip, pre, hsuffix⟩ :=
    stripSegments_of_prefix p.segments s.toList hhead hpre
  cases hr : rest with
  | nil =>
      subst hr
      refine ⟨"/", ?_, by decide, Or.inl rfl⟩
      unfold Path.removePrefixFrom
      rw [hstrip]
  | cons c cs' =>
      subst hr
      refine ⟨⟨c :: cs'⟩, ?_, ?_, Or.inr ⟨pre, ?_⟩⟩
      · unfold Path.removePrefixFrom
        rw [hstrip]
      · intro h
        have := congrArg String.data h
        simp at this
      · exact hsuffix

/-- A fold keeping the last element satisfying `p` returns an element of
the list satisfying `p`, unless it returns its starting accumulator. -/
theorem lastSuch_aux {p : α → Bool} : ∀ (l : List α) (acc : Option α) (x : α),
    l.foldl (fun acc y => if p y then some y else acc) acc = some x →
    (x ∈ l ∧ p x = true) ∨ acc = some x := by
  intro l
  induction l with
  | nil => intro acc x h; exact Or.inr h
  | cons y l ih =>
      intro acc x h
      simp only [List.foldl_cons] at h
      rcases ih _ x h with h1 | h2
      · exact Or.inl ⟨List.mem_cons_of_mem y h1.1, h1.2⟩
      · by_cases hy : p y
        · rw [if_pos hy] at h2
          cases h2
          exact Or.inl ⟨List.mem_cons_self y l, hy⟩
        · rw [if_neg hy] at h2
          exact Or.inr h2

/-- `pickBest` returns a candidate from the list, unless it returns its
starting accumulator. -/
theorem pickBest_aux {isCand : Nat × RouterEntry V → Bool} :
    ∀ (l : List (Nat × RouterEntry V)) (acc : Option (Nat × RouterEntry V))
      (x : Nat × RouterEntry V),
      pickBest isCand acc l = some x →
      (x ∈ l ∧ isCand x = true) ∨ acc = some x := by
  intro l
  induction l with
  | nil => intro acc x h; exact Or.inr h
  | cons y l ih =>
      intro acc x h
      simp only [pickBest] at h
      rcases ih _ x h with h1 | h2
      · exact Or.inl ⟨List.mem_cons_of_mem y h1.1, h1.2⟩
      · by_cases hy : isCand y
        · rw [if_pos hy] at h2
          cases hacc : acc with
          | none =>
              rw [hacc] at h2
              simp only at h2
              cases h2
              exact Or.inl ⟨List.mem_cons_self y l, hy⟩
          | some prev =>
              rw [hacc] at h2
              simp only at h2
              by_cases hb : (pathSegments prev.2.rule).length ≤
                  (pathSegments y.2.rule).length
              · rw [if_pos hb] at h2
                cases h2
                exact Or.inl ⟨List.mem_cons_self y l, hy⟩
              · rw [if_neg hb] at h2
                exact Or.inr h2
        · rw [if_neg hy] at h2
          exact Or.inr h2

/-- The second component of an enumerated pair belongs to the list. -/
theorem mem_enumFrom_snd : ∀ (l : List α) (n i : Nat) (e : α),
    (i, e) ∈ List.enumFrom n l → e ∈ l := by
  intro l
  induction l with
  | nil => intro n i e h; simp at h
  | cons x xs ih =>
      intro n i e h
      simp only [List.enumFrom] at h
      rcases List.mem_cons.mp h with h1 | h2
      · have := (Prod.mk.injEq _ _ _ _).mp h1
        rw [this.2]
        exact List.mem_cons_self x xs
      · exact List.mem_cons_of_mem x (ih (n + 1) i e h2)

/-- An indexed entry of `withIndices` is an entry of the list. -/
theorem withIndices_mem {l : List (RouterEntry V)} {i : Nat}
    {e : RouterEntry V} (h : (i, e) ∈ withIndices l) : e ∈ l :=
  mem_enumFrom_snd l 0 i e h

/-- A per-host lookup match comes from a registered entry: either an entry
whose rule segments equal the request's segments (yielding the fallback
when present, the payload otherwise), or a fallback-carrying entry whose
rule segments are a prefix of the request's (yielding the payload). -/
theorem lookupHost_match (r : Router V) (h : String) (P : List String)
    (m : RMatch V) (hm : r.lookupHost h P = some m) :
    ∃ e ∈ r.entries,
      (pathSegments e.rule = P ∧ m.value = e.fallback.getD e.value) ∨
      (e.fallback.isSome = true ∧ pathSegments e.rule <+: P ∧
        m.value = e.value) := by
  unfold Router.lookupHost at hm
  cases hlast : lastSuch (fun ie => ie.2.host = h ∧ pathSegments ie.2.rule = P)
      (withIndices r.entries) with
  | some ie =>
      rw [hlast] at hm
      obtain ⟨i, e⟩ := ie
      cases hm
      rcases lastSuch_aux (withIndices r.entries) none (i, e) hlast with h1 | h2
      · refine ⟨e, withIndices_mem h1.1, Or.inl ⟨?_, rfl⟩⟩
        have := h1.2
        simp only [decide_eq_true_eq] at this
        exact this.2
      · cases h2
  | none =>
      rw [hlast] at hm
      simp only [Option.map_eq_some'] at hm
      obtain ⟨ie, hbest, hmap⟩ := hm
      obtain ⟨i, e⟩ := ie
      rcases pickBest_aux (withIndices r.entries) none (i, e) hbest with h1 | h2
      · have hc := h1.2
        simp only [decide_eq_true_eq] at hc
        refine ⟨e, withIndices_mem h1.1, Or.inr ⟨?_, ?_, ?_⟩⟩
        · exact hc.2.1
        · exact List.isPrefixOf_iff_prefix.mp hc.2.2.2
        · rw [← hmap]
      · cases h2

/-- A table lookup match comes from a registered entry of the exact host or
the default host: either the rule segments equal the request's segments
(the match yields the fallback when present, the payload otherwise), or the
entry carries a fallback and its rule segments are a prefix of the
request's (the match yields the payload). -/
theorem lookup_match (r : Router V) (host path : String) (m : RMatch V)
    (h : r.lookup host path = some m) :
    ∃ e ∈ r.entries,
      (pathSegments e.rule = pathSegments path ∧
        m.value = e.fallback.getD e.value) ∨
      (e.fallback.isSome = true ∧
        pathSegments e.rule <+: pathSegments path ∧ m.value = e.value) := by
  simp only [Router.lookup] at h
  cases h1 : r.lookupHost host (pathSegments path) with
  | some m0 =>
      rw [h1] at h
      cases h
      exact lookupHost_match r host _ _ h1
  | none =>
      rw [h1] at h
      exact lookupHost_match r "" _ m h

/-- In a compiled table, a present fallback equals its entry's payload, and
a strip marker is always the normalized form of the entry's own rule
path. -/
theorem try_from_payload_inv (tih : C → Except Err H)
    (conf : VirtualHostsConf C) (vh : VirtualHostsHandler H)
    (ws : List Warning) (h : try_from tih conf = Except.ok (vh, ws)) :
    ∀ e ∈ vh.handlers.entries,
      (e.fallback = none ∨ e.fallback = some e.value) ∧
      ∀ p0, e.value.1 = some p0 → p0 = Path.new e.rule := by
  intro e he
  rcases try_from_entry_cases tih conf vh ws h e he with h2 | h3
  · obtain ⟨h', hr⟩ := h2
    rw [hr]
    refine ⟨Or.inr rfl, ?_⟩
    intro p0 hp0
    simp [rootEntry] at hp0
  · obtain ⟨hc, _, rc, _, hh, _, n, hne⟩ := h3
    rw [hne]
    constructor
    · by_cases hex : rc.1.exact
      · exact Or.inl (by simp [subpathEntry, hex])
      · exact Or.inr (by simp [subpathEntry, hex])
    · intro p0 hp0
      simp only [subpathEntry] at hp0 ⊢
      unfold ruleStrip at hp0
      by_cases hf : rc.2.stripPrefixFlag
      · rw [if_pos hf] at hp0
        cases hp0
        rfl
      · rw [if_neg hf] at hp0
        cases hp0

/-- Claim C5: for a table compiled by `try_from`, when the selection-phase
lookup matches a payload carrying a strip marker, the selection-phase state
update rewrites the request path in place to the remainder left after
removing the matched marker's segments — preserving the query component
unchanged — and the remainder is exactly `/` when the removal leaves
nothing.  (The session is assumed well-formed: the raw path starts with a
separator when nonempty and uses valid characters, the query is valid, and
scheme and authority are both present or both absent.) -/
theorem C5_theorem (tih : C → Except Err H) (conf : VirtualHostsConf C)
    (vh : VirtualHostsHandler H) (ws : List Warning) (session : Session)
    (m : RMatch (Option Path × H)) (p : Path)
    (hcompile : try_from tih conf = Except.ok (vh, ws))
    (hlookup : vh.handlers.lookup (session.host.getD "") session.uri.path =
      some m)
    (hstripm : m.value.1 = some p)
    (hph : session.uri.pq.path ≠ "" →
      session.uri.pq.path.toList.head? = some (Char.ofNat 47))
    (hvalid : session.uri.pq.path.toList.all validPathChar = true)
    (hqv : ∀ q, session.uri.query = some q →
      q.toList.all validQueryChar = true)
    (hsa : session.uri.scheme.isSome ↔ session.uri.authority.isSome) :
    ∃ rem, p.removePrefixFrom session.uri.path = some rem ∧ rem ≠ "" ∧
      (stripSegments p.segments session.uri.path.toList = some [] →
        rem = "/") ∧
      select_session session session.uri.path m =
        { session with
            extensions := ⟨some m.index⟩,
            uri := ⟨session.uri.scheme, session.uri.authority,
              ⟨rem, session.uri.query⟩⟩ } := by
  obtain ⟨e, hemem, hcase⟩ :=
    lookup_match vh.handlers (session.host.getD "") session.uri.path m hlookup
  obtain ⟨hfb, hstrip_inv⟩ :=
    try_from_payload_inv tih conf vh ws hcompile e hemem
  have hmv : m.value = e.value := by
    rcases hcase with ⟨_, hv⟩ | ⟨_, _, hv⟩
    · rcases hfb with hf | hf
      · rw [hv, hf]
        rfl
      · rw [hv, hf]
        rfl
    · exact hv
  have hpe : p = Path.new e.rule := by
    refine hstrip_inv p ?_
    rw [← hmv]
    exact hstripm
  have hpre : p.segments <+: pathSegments session.uri.path := by
    have hsegs : p.segments = pathSegments e.rule := by
      rw [hpe]
      rfl
    rw [hsegs]
    rcases hcase with ⟨heq, _⟩ | ⟨_, hp2, _⟩
    · rw [heq]
    · exact hp2
  have hheadS : session.uri.path.toList.head? = some (Char.ofNat 47) := by
    unfold Uri.path
    by_cases hemp : session.uri.pq.path = ""
    · rw [if_pos hemp]
      decide
    · rw [if_neg hemp]
      exact hph hemp
  have hvalidS : session.uri.path.toList.all validPathChar = true := by
    unfold Uri.path
    by_cases hemp : session.uri.pq.path = ""
    · rw [if_pos hemp]
      decide
    · rw [if_neg hemp]
      exact hvalid
  obtain ⟨rem, hrem, hremne, hremcase⟩ :=
    removePrefixFrom_of_prefix p session.uri.path (fun _ => hheadS) hpre
  have hremvalid : rem.toList.all validPathChar = true := by
    rcases hremcase with h1 | ⟨pre, h2⟩
    · rw [h1]
      decide
    · have := hvalidS
      rw [h2, List.all_append] at this
      simp only [Bool.and_eq_true] at this
      exact this.2
  refine ⟨rem, hrem, hremne, ?_, ?_⟩
  · intro h0
    have hslash : p.removePrefixFrom session.uri.path = some "/" := by
      unfold Path.removePrefixFrom
      rw [h0]
    rw [hrem] at hslash
    exact Option.some.inj hslash
  · have hnew : m.value.1.bind
        (fun p0 => p0.removePrefixFrom session.uri.path) = some rem := by
      rw [hstripm]
      exact hrem
    have hset : set_uri_path session.uri rem =
        ⟨session.uri.scheme, session.uri.authority, ⟨rem, session.uri.query⟩⟩ :=
      set_uri_path_valid session.uri rem hsa hremvalid hqv
    simp only [select_session]
    rw [hnew]
    show Session.setUri { session with extensions := ⟨some m.index⟩ }
      (set_uri_path session.uri rem) = _
    rw [hset]
    rfl

/-- Witness for C5 at a concrete input: `/subdir/xyz?abc` against the
stripping rule `/subdir/*` is rewritten in place to `/xyz` with the query
preserved. -/
theorem C5_witness :
    ∃ rem, Path.removePrefixFrom ⟨["subdir"]⟩ sess5.uri.path = some rem ∧
      rem ≠ "" ∧
      (stripSegments (Path.mk ["subdir"]).segments sess5.uri.path.toList =
        some [] → rem = "/") ∧
      select_session sess5 sess5.uri.path
          ⟨(some ⟨["subdir"]⟩, 3), 1⟩ =
        { sess5 with
            extensions := ⟨some 1⟩,
            uri := ⟨sess5.uri.scheme, sess5.uri.authority,
              ⟨rem, sess5.uri.query⟩⟩ } :=
  C5_theorem okTih conf5 vh5 [] sess5 ⟨(some ⟨["subdir"]⟩, 3), 1⟩
    ⟨["subdir"]⟩ rfl rfl rfl (fun _ => rfl) (by decide)
    (fun q hq => by cases hq; decide) (by decide)

end PandoraVH
